import Mathlib

/-!
Verification of the n8n-porter migration engine (src/main.py).

The engine's data are JSON documents (Python dicts/lists/scalars).  We embed
them as `JVal`; a Python dict is an insertion-ordered association list, so the
object constructor carries `List (String × JVal)` and dict reads/writes are
modelled by `alookup`/`aset` below, which preserve insertion order exactly as
CPython dicts (3.7 and later) do.  Numbers are integers (the source only ever
stores integral settings values); floating point does not occur in any claim.
-/

namespace NPorter

/-- Dict lookup: the value at the first entry whose key equals `k`
(CPython dicts hold each key once, so "first" is "the" entry). -/
def alookup {α : Type} : List (String × α) → String → Option α
  | [], _ => none
  | p :: t, k => if p.1 = k then some p.2 else alookup t k

/-- The keys of a dict, in insertion order. -/
def akeys {α : Type} (l : List (String × α)) : List String :=
  l.map Prod.fst

/-- Dict write `d[k] = v`: an existing key keeps its position and gets the new
value; a fresh key is appended at the end, as CPython insertion order does. -/
def aset {α : Type} (l : List (String × α)) (k : String) (v : α) : List (String × α) :=
  if k ∈ akeys l then
    l.map (fun p => if p.1 = k then (k, v) else p)
  else
    l ++ [(k, v)]

/-- JSON documents as manipulated by the engine. -/
inductive JVal where
  | null : JVal
  | bool : Bool → JVal
  | num : Int → JVal
  | str : String → JVal
  | arr : List JVal → JVal
  | obj : List (String × JVal) → JVal

/-- A Python dict with string keys and JSON values. -/
abbrev JObj := List (String × JVal)

/-- `d.get(k)` / `d[k]` on a JSON object. -/
def jget (o : JObj) (k : String) : Option JVal := alookup o k

/-- `d[k] = v` on a JSON object. -/
def jset (o : JObj) (k : String) (v : JVal) : JObj := aset o k v

/-! ## String helpers used by the rewrite engine (main.py lines 264-281)

`firstToken` is `s.split(' ')[0] if ' ' in s else s`: both Python branches
equal the characters before the first space (the whole string when there is
no space), i.e. `takeWhile (· ≠ ' ')`. -/

/-- Python `s.lower()` (the source data is ASCII, where CPython's `lower`
agrees with `Char.toLower` characterwise). -/
def lowerStr (s : String) : String := ⟨s.data.map Char.toLower⟩

/-- Python `s.split(' ')[0] if ' ' in s else s`. -/
def firstToken (s : String) : String := ⟨s.data.takeWhile (fun c => c != ' ')⟩

/-- Python `s.replace('_', ' ')` (single-character pattern case). -/
def underscoreToSpace (s : String) : String :=
  ⟨s.data.map (fun c => if c = '_' then ' ' else c)⟩

/-- The match test of main.py lines 272-274:
`cred_base_name.lower() == base_name.lower() or
 cred_base_name.replace('_', ' ').lower() == base_name.lower()`
where `cred_base_name` is the first space-token of the mapping key. -/
def credMatch (base_name cred_key : String) : Bool :=
  let cred_base_name := firstToken cred_key
  lowerStr cred_base_name == lowerStr base_name ||
    lowerStr (underscoreToSpace cred_base_name) == lowerStr base_name

/-- The credential-resolution step of `create_workflow` (main.py lines
264-281) for one node credential entry: read the declared `name` (defaulting
to `""` when absent), take its first space-token, scan the credential mapping
in insertion order for the first matching key and, on a match, set the
entry's `id` to the mapped id; otherwise leave the entry untouched.  A
present non-string `name` would make the Python code raise (`.split` on a
non-string), hence `none`. -/
def resolveCredEntry (credential_mapping : List (String × String)) (cred_data : JObj) :
    Option JObj :=
  let resolve := fun (old_name : String) =>
    let base_name := firstToken old_name
    match credential_mapping.find? (fun p => credMatch base_name p.1) with
    | some p => jset cred_data "id" (JVal.str p.2)
    | none => cred_data
  match jget cred_data "name" with
  | some (JVal.str s) => some (resolve s)
  | none => some (resolve "")
  | some _ => none

/-! ## The rewrite pipeline of `create_workflow` (main.py lines 252-315)

The literal-replacement step (lines 241-250) operates on the serialized
text and is modelled separately below; the following functions model the
pipeline from the settings update onwards, exactly in source order:
settings normalization, then per-node credential resolution and
sub-workflow remapping, then extraction of the submission payload.
Where the Python code would raise on ill-shaped data (attribute/key errors
on non-dict values), the model returns `none`. -/

/-- The settings dict built at main.py lines 252-260: exactly five keys,
each taken from the incoming settings when present and defaulted
otherwise. -/
def mkSettings (s : JObj) : JObj :=
  [("saveExecutionProgress", (jget s "saveExecutionProgress").getD (JVal.bool true)),
   ("saveManualExecutions", (jget s "saveManualExecutions").getD (JVal.bool true)),
   ("saveDataErrorExecution", (jget s "saveDataErrorExecution").getD (JVal.str "all")),
   ("executionTimeout", (jget s "executionTimeout").getD (JVal.num 3600)),
   ("errorWorkflow", (jget s "errorWorkflow").getD (JVal.str ""))]

/-- The incoming settings dict, `workflow_payload.get('settings', {})`; a
present non-dict value would make the chained `.get` raise. -/
def settingsOf (wf : JObj) : Option JObj :=
  match jget wf "settings" with
  | none => some []
  | some (JVal.obj s) => some s
  | some _ => none

/-- `workflow_payload.update({"settings": {...}})`. -/
def normalizeSettings (wf : JObj) : Option JObj :=
  (settingsOf wf).map (fun s => jset wf "settings" (JVal.obj (mkSettings s)))

/-- The per-key default of the settings normalization. -/
def settingsDefault (k : String) : JVal :=
  if k = "saveExecutionProgress" then JVal.bool true
  else if k = "saveManualExecutions" then JVal.bool true
  else if k = "saveDataErrorExecution" then JVal.str "all"
  else if k = "executionTimeout" then JVal.num 3600
  else JVal.str ""

/-- `'n8n-nodes-base.executeWorkflow'`. -/
def execWorkflowType : String := "n8n-nodes-base.executeWorkflow"

/-- `'@n8n/n8n-nodes-langchain.toolWorkflow'`. -/
def toolWorkflowType : String := "@n8n/n8n-nodes-langchain.toolWorkflow"

/-- Truncation of a stale `cachedResultName` to its first space-token
(main.py lines 295-296 and 307-308); only performed when the key is
present, and only reached after a successful id remap. -/
def truncateCachedName (ref : JObj) : Option JObj :=
  match jget ref "cachedResultName" with
  | none => some ref
  | some (JVal.str s) => some (jset ref "cachedResultName" (JVal.str (firstToken s)))
  | some _ => none

/-- Remap of an object-shaped sub-workflow reference `{value,
cachedResultName}` (main.py lines 290-296): a non-empty string `value` that
is a key of the id mapping is replaced by the mapped id and the cached name
is truncated; a falsy or unmapped `value` leaves the reference untouched.
(Python's `old_id in sf_id_mapping` would raise on an unhashable dict/list
value, hence `none` there; numbers and booleans are never keys of the
string-keyed mapping, so they fall through unchanged.) -/
def rewriteObjRef (sf : List (String × String)) (ref : JObj) : Option JObj :=
  match jget ref "value" with
  | some (JVal.str v) =>
    if v = "" then some ref
    else
      match alookup sf v with
      | some nid => truncateCachedName (jset ref "value" (JVal.str nid))
      | none => some ref
  | some (JVal.arr _) => none
  | some (JVal.obj _) => none
  | _ => some ref

/-- The sub-workflow remap of one node (main.py lines 283-308).  An
`executeWorkflow` node handles both the bare-string and the object shape of
`parameters.workflowId`; a `toolWorkflow` node handles only the object
shape.  The whole step is guarded by the truthiness of `sf_id_mapping`. -/
def rewriteNodeSub (sf : List (String × String)) (node : JObj) : Option JObj :=
  if sf.isEmpty then some node
  else
    match jget node "type" with
    | some (JVal.str t) =>
      if t = execWorkflowType then
        match jget node "parameters" with
        | none => some node
        | some (JVal.obj params) =>
          match jget params "workflowId" with
          | some (JVal.str wid) =>
            match alookup sf wid with
            | some nid =>
              some (jset node "parameters" (JVal.obj (jset params "workflowId" (JVal.str nid))))
            | none => some node
          | some (JVal.obj ref) =>
            (rewriteObjRef sf ref).map
              (fun r => jset node "parameters" (JVal.obj (jset params "workflowId" (JVal.obj r))))
          | _ => some node
        | some _ => none
      else if t = toolWorkflowType then
        match jget node "parameters" with
        | none => some node
        | some (JVal.obj params) =>
          match jget params "workflowId" with
          | some (JVal.obj ref) =>
            (rewriteObjRef sf ref).map
              (fun r => jset node "parameters" (JVal.obj (jset params "workflowId" (JVal.obj r))))
          | _ => some node
        | some _ => none
      else some node
    | _ => some node

/-- The credential-resolution pass over one node (main.py lines 264-281):
each entry of the node's `credentials` dict is resolved in place. -/
def rewriteNodeCreds (credMap : List (String × String)) (node : JObj) : Option JObj :=
  match jget node "credentials" with
  | none => some node
  | some (JVal.obj creds) =>
    (creds.mapM (fun (p : String × JVal) =>
        match p.2 with
        | JVal.obj cd => (resolveCredEntry credMap cd).map (fun cd2 => (p.1, JVal.obj cd2))
        | _ => none)).map
      (fun creds2 => jset node "credentials" (JVal.obj creds2))
  | some _ => none

/-- One full node rewrite: credentials first, then the sub-workflow remap,
in source order. -/
def rewriteNode (credMap sf : List (String × String)) : JVal → Option JVal
  | JVal.obj node =>
    (rewriteNodeCreds credMap node).bind (fun n1 => (rewriteNodeSub sf n1).map JVal.obj)
  | _ => none

/-- The rewrite pipeline after literal replacement: settings normalization
(lines 252-260), then the node loop (lines 262-308). -/
def rewriteWorkflow (credMap sf : List (String × String)) (wf : JObj) : Option JObj :=
  (normalizeSettings wf).bind (fun wf1 =>
    match jget wf1 "nodes" with
    | none => some wf1
    | some (JVal.arr ns) =>
      (ns.mapM (rewriteNode credMap sf)).map (fun ns2 => jset wf1 "nodes" (JVal.arr ns2))
    | some _ => none)

/-- The submission payload of main.py lines 310-315: exactly `name`,
`nodes`, `connections`, `settings` (a missing mandatory key raises). -/
def createPayload (wf : JObj) : Option JObj :=
  match jget wf "name", jget wf "nodes", jget wf "connections" with
  | some n, some nd, some c =>
    some [("name", n), ("nodes", nd), ("connections", c),
          ("settings", (jget wf "settings").getD (JVal.obj []))]
  | _, _, _ => none

/-- Rewrite followed by payload extraction. -/
def buildCreatePayload (credMap sf : List (String × String)) (wf : JObj) : Option JObj :=
  (rewriteWorkflow credMap sf wf).bind createPayload

/-! ## Dependency analysis and creation order (main.py lines 449-528) -/

/-- A dependency graph: workflow id → ids it directly invokes. -/
abbrev DepGraph := List (String × List String)

/-- The dependencies contributed by one node
(`analyze_workflow_dependencies`, main.py lines 463-482): an
`executeWorkflow` node yields its string `workflowId`, or the `value` of an
object-shaped one when truthy; a `toolWorkflow` node yields only the
object-shaped `value`.  A truthy non-string `value` would be appended by the
source as a non-string graph entry (never equal to any workflow id); such
inputs are left outside the model (`none`), as are the shapes on which the
source raises. -/
def refValueDep (ref : JObj) : Option (List String) :=
  match jget ref "value" with
  | some (JVal.str v) => some (if v = "" then [] else [v])
  | some JVal.null => some []
  | none => some []
  | some (JVal.bool b) => if b then none else some []
  | some (JVal.num k) => if k = 0 then some [] else none
  | some (JVal.arr xs) => if xs.isEmpty then some [] else none
  | some (JVal.obj fs) => if fs.isEmpty then some [] else none

/-- See `refValueDep`. -/
def nodeDeps (n : JVal) : Option (List String) :=
  match n with
  | JVal.obj node =>
    match jget node "type" with
    | some (JVal.str t) =>
      if t = execWorkflowType then
        match jget node "parameters" with
        | none => some []
        | some (JVal.obj params) =>
          match jget params "workflowId" with
          | some (JVal.str wid) => some [wid]
          | some (JVal.obj ref) => refValueDep ref
          | _ => some []
        | some _ => none
      else if t = toolWorkflowType then
        match jget node "parameters" with
        | none => some []
        | some (JVal.obj params) =>
          match jget params "workflowId" with
          | some (JVal.obj ref) => refValueDep ref
          | _ => some []
        | some _ => none
      else some []
    | _ => some []
  | _ => none

/-- `analyze_workflow_dependencies` (main.py lines 449-484): collect the
per-node dependencies in node order; a workflow without `nodes` has none. -/
def analyze_workflow_dependencies (workflow : JObj) : Option (List String) :=
  match jget workflow "nodes" with
  | none => some []
  | some (JVal.arr ns) =>
    ns.foldlM (fun acc n => (nodeDeps n).map (fun ds => acc ++ ds)) []
  | some _ => none

/-- `build_dependency_graph` (main.py lines 486-499): one graph entry per
workflow, keyed by its `id` (dict write, so a duplicated id keeps one
entry); a workflow without a string id is outside the model (the source
would raise a `KeyError` or build a non-string key). -/
def build_dependency_graph (workflows : List JObj) : Option DepGraph :=
  workflows.foldlM (fun g w =>
    match jget w "id" with
    | some (JVal.str wid) =>
      (analyze_workflow_dependencies w).map (fun deps => aset g wid deps)
    | _ => none) []

/-- The error message of main.py line 521. -/
def cycleErrorMsg : String := "Circular dependency detected in workflows"

/-- `not any(dep in remaining for dep in deps)` (main.py lines 516-517):
a workflow is ready when none of its dependencies is still a key of
`remaining` — dependencies outside the key set never block. -/
def isReadyEntry (remaining : DepGraph) (p : String × List String) : Bool :=
  !(p.2.any (fun dep => remaining.any (fun q => q.1 == dep)))

/-- The `ready` list of one round (main.py lines 516-517), in the dict's
insertion order. -/
def readyOf (remaining : DepGraph) : DepGraph :=
  remaining.filter (isReadyEntry remaining)

/-- One peeling round: drop every ready entry (`del remaining[workflow_id]`
for each ready id, main.py lines 525-526). -/
def peelReady (remaining : DepGraph) : DepGraph :=
  remaining.filter (fun p => !((readyOf remaining).any (fun q => q.1 == p.1)))

/-- The `while remaining` loop of `get_workflow_order` (main.py lines
514-526), returning the ready ids round by round (the source flattens them
into `order` with `order.extend(ready)`).  The loop removes at least one
entry per round, so `remaining.length + 1` units of fuel always suffice;
an exhausted-fuel state (unreachable from `get_workflow_order`) reports the
same cycle error. -/
def kahnRoundsF : Nat → DepGraph → Except String (List (List String))
  | 0, remaining => if remaining.isEmpty then Except.ok [] else Except.error cycleErrorMsg
  | fuel+1, remaining =>
    if remaining.isEmpty then Except.ok []
    else
      if (readyOf remaining).isEmpty then Except.error cycleErrorMsg
      else
        match kahnRoundsF fuel (peelReady remaining) with
        | Except.ok rounds => Except.ok (akeys (readyOf remaining) :: rounds)
        | Except.error e => Except.error e

/-- `get_workflow_order` (main.py lines 501-528). -/
def get_workflow_order (graph : DepGraph) : Except String (List String) :=
  (kahnRoundsF (graph.length + 1) graph).map List.flatten

/-! Concrete two-workflow scenario data for the sub-workflow remap claim. -/

/-- `W1`: no sub-workflow nodes. -/
def scenarioW1 : JObj :=
  [("id", JVal.str "W1"), ("name", JVal.str "Workflow One"),
   ("nodes", JVal.arr []), ("connections", JVal.obj [])]

/-- The invoking node of `W2`: an `executeWorkflow` node calling `W1` by
string id. -/
def scenarioW2Node : JObj :=
  [("name", JVal.str "Call W1"), ("type", JVal.str execWorkflowType),
   ("parameters", JVal.obj [("workflowId", JVal.str "W1")])]

/-- `W2`: one node invoking `W1` by string id. -/
def scenarioW2 : JObj :=
  [("id", JVal.str "W2"), ("name", JVal.str "Workflow Two"),
   ("nodes", JVal.arr [JVal.obj scenarioW2Node]), ("connections", JVal.obj [])]

/-! ## Remote-effect traces (create_workflow lines 317-352, perform_cleanup
lines 881-946, the resource ledger lines 974-997 and 1075-1137)

Remote calls and ledger mutations are modelled as an ordered trace of
events; the outcome of each remote call (the HTTP status) is an input
parameter, since the transport is an external collaborator. -/

/-- The three resource kinds of the ledger. -/
inductive RType where
  | workflows : RType
  | credentials : RType
  | projects : RType
  deriving DecidableEq

/-- One remote-visible action: an HTTP mutation attempt or a durable ledger
write. -/
inductive RemoteEvent where
  | wfCreate (name : String) : RemoteEvent
  | wfTransfer (id projectId : String) : RemoteEvent
  | wfDelete (id : String) : RemoteEvent
  | credDelete (id : String) : RemoteEvent
  | projDelete (id : String) : RemoteEvent
  | ledgerAdd (ty : RType) (id name : String) : RemoteEvent
  | ledgerRemove (ty : RType) (id : String) : RemoteEvent
  deriving DecidableEq

/-- The submission phase of `create_workflow` (main.py lines 317-352):
POST the payload; on failure return `None` having only attempted the
create.  On success, when the target supports projects, attempt the
transfer; a failed transfer deletes the just-created workflow and returns
`None` — no ledger record is written.  Only after create (and transfer,
when applicable) succeed is the ledger record written and the new id
returned.  `createRes` is the outcome of the POST (`none` for a non-200
response), `transferOk` the outcome of the PUT. -/
def createWorkflowSubmit (supportsProjects : Bool) (projectId name : String)
    (createRes : Option String) (transferOk : String → Bool) :
    Option String × List RemoteEvent :=
  match createRes with
  | none => (none, [RemoteEvent.wfCreate name])
  | some wid =>
    if supportsProjects then
      if transferOk wid then
        (some wid, [RemoteEvent.wfCreate name, RemoteEvent.wfTransfer wid projectId,
          RemoteEvent.ledgerAdd RType.workflows wid name])
      else
        (none, [RemoteEvent.wfCreate name, RemoteEvent.wfTransfer wid projectId,
          RemoteEvent.wfDelete wid])
    else
      (some wid, [RemoteEvent.wfCreate name, RemoteEvent.ledgerAdd RType.workflows wid name])

/-- `workflow['id']` as a string (theorems only use workflows whose id is a
string; the source raises on a missing id before this point). -/
def widOf (w : JObj) : String :=
  match jget w "id" with
  | some (JVal.str s) => s
  | _ => ""

/-- `workflow['name']` as a string. -/
def nameOf (w : JObj) : String :=
  match jget w "name" with
  | some (JVal.str s) => s
  | _ => ""

/-- The workflow phase of `perform_restore` (main.py lines 645-671): build
the dependency graph and the creation order; a cycle error aborts the whole
phase before any workflow is submitted (zero events, zero counts — the
credential phase has already run and is not rolled back).  Otherwise each
workflow is rewritten and submitted in order, accumulating the events of
`createWorkflowSubmit` and the created/failed counters.  (The rewritten
payload body is modelled by `buildCreatePayload`; the trace records the
submissions and ledger writes.) -/
def restoreWorkflowsPhase (workflows : List JObj) (supports : Bool) (projectId : String)
    (createRes : String → Option String) (transferOk : String → Bool) :
    Option (List RemoteEvent × Nat × Nat) :=
  match build_dependency_graph workflows with
  | none => none
  | some graph =>
    match get_workflow_order graph with
    | Except.error _ => some ([], 0, 0)
    | Except.ok order =>
      some (order.foldl (fun acc wid =>
        let wfData := (workflows.find? (fun w => widOf w == wid)).getD []
        let res := createWorkflowSubmit supports projectId (nameOf wfData)
          (createRes wid) transferOk
        (acc.1 ++ res.2,
          (if res.1.isSome then acc.2.1 + 1 else acc.2.1),
          (if res.1.isSome then acc.2.2 else acc.2.2 + 1))) ([], 0, 0))

/-- One instance's ledger entry: three dicts, remote-id → display name. -/
structure LedgerEntry where
  workflows : List (String × String)
  credentials : List (String × String)
  projects : List (String × String)
  deriving DecidableEq

/-- The empty entry `{'workflows': {}, 'credentials': {}, 'projects': {}}`. -/
def emptyLedgerEntry : LedgerEntry := ⟨[], [], []⟩

/-- Read one sub-map. -/
def LedgerEntry.get (e : LedgerEntry) : RType → List (String × String)
  | RType.workflows => e.workflows
  | RType.credentials => e.credentials
  | RType.projects => e.projects

/-- Write one sub-map. -/
def LedgerEntry.put (e : LedgerEntry) : RType → List (String × String) → LedgerEntry
  | RType.workflows, m => { e with workflows := m }
  | RType.credentials, m => { e with credentials := m }
  | RType.projects, m => { e with projects := m }

/-- The deletion block for one tracked credential (main.py lines 915-922
with `delete_credential`, lines 1017-1033): the DELETE is attempted; only
when it succeeds is the ledger entry removed (a failure raises before
`remove_resource_mapping` and is caught by the loop). -/
def credBlock (ok : String → Bool) (id : String) : List RemoteEvent :=
  RemoteEvent.credDelete id ::
    (if ok id then [RemoteEvent.ledgerRemove RType.credentials id] else [])

/-- Likewise for one tracked workflow (main.py lines 924-932, 999-1015). -/
def wfBlock (ok : String → Bool) (id : String) : List RemoteEvent :=
  RemoteEvent.wfDelete id ::
    (if ok id then [RemoteEvent.ledgerRemove RType.workflows id] else [])

/-- Likewise for the tracked project (main.py lines 934-939, 1035-1051). -/
def projBlock (ok : String → Bool) (id : String) : List RemoteEvent :=
  RemoteEvent.projDelete id ::
    (if ok id then [RemoteEvent.ledgerRemove RType.projects id] else [])

/-- The credential deletion loop (main.py lines 914-922), in the dict's
insertion order. -/
def credPhase (resources : LedgerEntry) (ok : String → Bool) : List RemoteEvent :=
  (resources.credentials.map (fun p => credBlock ok p.1)).flatten

/-- The workflow deletion loop (main.py lines 924-932). -/
def wfPhase (resources : LedgerEntry) (ok : String → Bool) : List RemoteEvent :=
  (resources.workflows.map (fun p => wfBlock ok p.1)).flatten

/-- The project deletion step (main.py lines 934-939): only when the
current project id is truthy and is a tracked key. -/
def projPhase (resources : LedgerEntry) (projectId : Option String) (ok : String → Bool) :
    List RemoteEvent :=
  match projectId with
  | some pid =>
    if pid ≠ "" ∧ pid ∈ akeys resources.projects then projBlock ok pid else []
  | none => []

/-- The event trace of `perform_cleanup` (main.py lines 881-946): nothing
without explicit "yes" confirmation; nothing when no workflows and no
credentials are tracked (early return — the project is then not touched
either); otherwise delete the tracked credentials first, then the tracked
workflows, then (when the current project id is truthy and tracked) the
project.  `resources` is the ledger entry of the current instance
(`get_instance_resources`), so only ledger-tracked ids are ever deleted. -/
def perform_cleanup_trace (confirm : String) (resources : LedgerEntry)
    (projectId : Option String) (delCredOk delWfOk delProjOk : String → Bool) :
    List RemoteEvent :=
  if lowerStr confirm ≠ "yes" then []
  else if resources.workflows.isEmpty && resources.credentials.isEmpty then []
  else
    credPhase resources delCredOk ++ wfPhase resources delWfOk ++
      projPhase resources projectId delProjOk

/-- The durable ledger document, keyed by instance base URL. -/
abbrev LedgerDoc := List (String × LedgerEntry)

/-- `save_resource_mapping` (main.py lines 1075-1105): read-modify-write of
the whole document; a fresh instance URL starts from the empty three-map
entry, then `mappings[url][type][id] = name`. -/
def save_resource_mapping (doc : LedgerDoc) (url : String) (ty : RType) (id name : String) :
    LedgerDoc :=
  let e := (alookup doc url).getD emptyLedgerEntry
  aset doc url (e.put ty (aset (e.get ty) id name))

/-- `remove_resource_mapping` (main.py lines 974-997): delete the id from
the instance's sub-map only when the url, the type and the id are all
present; otherwise the document is left as it is. -/
def remove_resource_mapping (doc : LedgerDoc) (url : String) (ty : RType) (id : String) :
    LedgerDoc :=
  match alookup doc url with
  | none => doc
  | some e =>
    if id ∈ akeys (e.get ty) then
      aset doc url (e.put ty ((e.get ty).eraseP (fun p => p.1 == id)))
    else doc

/-- `get_instance_resources` (main.py lines 1107-1137): the instance's
entry, or the empty three-map entry when the document or the entry is
absent — never an error. -/
def get_instance_resources (doc : LedgerDoc) (url : String) : LedgerEntry :=
  (alookup doc url).getD emptyLedgerEntry

/-- One Resource Mapping Store operation. -/
inductive LedgerOp where
  | record (url : String) (ty : RType) (id name : String) : LedgerOp
  | forget (url : String) (ty : RType) (id : String) : LedgerOp

/-- Apply one operation to the document. -/
def applyLedgerOp (doc : LedgerDoc) : LedgerOp → LedgerDoc
  | LedgerOp.record url ty id name => save_resource_mapping doc url ty id name
  | LedgerOp.forget url ty id => remove_resource_mapping doc url ty id

/-- Run a sequence of operations from the absent/empty document. -/
def runLedgerOps (ops : List LedgerOp) : LedgerDoc := ops.foldl applyLedgerOp []

/-- A cycle among the graph's keys, presented as a non-empty set of ids
each of which has an in-set dependency through its graph entry — for a
finite graph this holds of the ids on any directed cycle (e.g. `A→B→A`
gives `S = [A, B]`), and conversely such a set always contains a cycle. -/
def CycleSetB (g : DepGraph) (S : List String) : Bool :=
  !S.isEmpty &&
    S.all (fun x => g.any (fun p => p.1 == x && p.2.any (fun y => S.any (fun z => z == y))))

/-- A workflow with one `executeWorkflow` node invoking `target`. -/
def cycleWf (own target : String) : JObj :=
  [("id", JVal.str own), ("name", JVal.str own),
   ("nodes", JVal.arr [JVal.obj [("type", JVal.str execWorkflowType),
     ("parameters", JVal.obj [("workflowId", JVal.str target)])]]),
   ("connections", JVal.obj [])]

/-! ## Cleanup ordering and ledger discipline (claim about perform_cleanup) -/

/-- Credential-phase events: a credential DELETE or a credential ledger
removal. -/
def isCredEvent : RemoteEvent → Bool
  | RemoteEvent.credDelete _ => true
  | RemoteEvent.ledgerRemove RType.credentials _ => true
  | _ => false

/-- Workflow-phase events. -/
def isWfEvent : RemoteEvent → Bool
  | RemoteEvent.wfDelete _ => true
  | RemoteEvent.ledgerRemove RType.workflows _ => true
  | _ => false

/-- Project-phase events. -/
def isProjEvent : RemoteEvent → Bool
  | RemoteEvent.projDelete _ => true
  | RemoteEvent.ledgerRemove RType.projects _ => true
  | _ => false

/-- Remote workflow deletions only. -/
def isWfDeleteEvent : RemoteEvent → Bool
  | RemoteEvent.wfDelete _ => true
  | _ => false

/-- Remote credential deletions only. -/
def isCredDeleteEvent : RemoteEvent → Bool
  | RemoteEvent.credDelete _ => true
  | _ => false

/-- Remote project deletions only. -/
def isProjDeleteEvent : RemoteEvent → Bool
  | RemoteEvent.projDelete _ => true
  | _ => false

/-- The deletion order the claim asserts: every remote workflow deletion
strictly precedes every remote credential deletion. -/
def wfDeletesPrecedeCredDeletes (t : List RemoteEvent) : Prop :=
  ∀ i j : Fin t.length, isWfDeleteEvent (t.get i) = true →
    isCredDeleteEvent (t.get j) = true → (i : Nat) < (j : Nat)

/-- The order the code actually implements, part 1. -/
def credDeletesPrecedeWfDeletes (t : List RemoteEvent) : Prop :=
  ∀ i j : Fin t.length, isCredDeleteEvent (t.get i) = true →
    isWfDeleteEvent (t.get j) = true → (i : Nat) < (j : Nat)

/-- The order the code actually implements, part 2. -/
def wfDeletesPrecedeProjDeletes (t : List RemoteEvent) : Prop :=
  ∀ i j : Fin t.length, isWfDeleteEvent (t.get i) = true →
    isProjDeleteEvent (t.get j) = true → (i : Nat) < (j : Nat)

/-- Every per-type sub-map of every instance entry of a document reachable
from the empty one has duplicate-free keys (the CPython dict invariant). -/
def DocTidy (doc : LedgerDoc) : Prop :=
  ∀ url ty, (akeys ((get_instance_resources doc url).get ty)).Nodup

/-! ## Serialization: json.dumps, str.replace, json.loads (create_workflow
lines 241-250 and get_environment_replacements) -/

/-- One decimal digit character. -/
def digitChar : Nat → Char
  | 0 => '0'
  | 1 => '1'
  | 2 => '2'
  | 3 => '3'
  | 4 => '4'
  | 5 => '5'
  | 6 => '6'
  | 7 => '7'
  | 8 => '8'
  | _ => '9'

/-- Decimal digits of a natural number, most significant first; any fuel
above the number itself is enough. -/
def natDigitsF : Nat → Nat → List Char
  | 0, _ => []
  | fuel+1, n =>
    if n < 10 then [digitChar n]
    else natDigitsF fuel (n / 10) ++ [digitChar (n % 10)]

/-- `int.__repr__`, the way json.dumps prints integers. -/
def intChars (n : Int) : List Char :=
  if n < 0 then '-' :: natDigitsF (n.natAbs + 1) n.natAbs
  else natDigitsF (n.toNat + 1) n.toNat

/-- json.dumps' default item separator, between array items and object
members. -/
def joinComma : List (List Char) → List Char
  | [] => []
  | [x] => x
  | x :: t => x ++ ',' :: ' ' :: joinComma t

/-- The ASCII characters json.dumps emits verbatim inside a string
literal: printable, not the quote, not the backslash.  json.dumps escapes
everything else (and, with its default ensure_ascii, all non-ASCII); the
model covers the escape-free fragment. -/
def jcharOK (c : Char) : Bool :=
  decide (32 ≤ c.toNat) && decide (c.toNat < 127) &&
    decide (c.toNat ≠ 34) && decide (c.toNat ≠ 92)

def strOK (s : String) : Bool :=
  s.data.all jcharOK

/-- json.dumps with its default separators ", " and ": ".  `fuel` bounds
the nesting depth; `goodF` states that the fuel is enough, and any value
is covered once fuel exceeds its depth. -/
def dumpsF : Nat → JVal → List Char
  | 0, _ => []
  | fuel+1, v =>
    match v with
    | JVal.null => ['n', 'u', 'l', 'l']
    | JVal.bool true => ['t', 'r', 'u', 'e']
    | JVal.bool false => ['f', 'a', 'l', 's', 'e']
    | JVal.num n => intChars n
    | JVal.str s => '"' :: s.data ++ ['"']
    | JVal.arr xs => '[' :: joinComma (xs.map (fun x => dumpsF fuel x)) ++ [']']
    | JVal.obj fs =>
      '\x7b' :: joinComma (fs.map (fun p =>
        '"' :: p.1.data ++ '"' :: ':' :: ' ' :: dumpsF fuel p.2)) ++ ['\x7d']

/-- One serialized object member. -/
def objItemF (fuel : Nat) (p : String × JVal) : List Char :=
  '"' :: p.1.data ++ '"' :: ':' :: ' ' :: dumpsF fuel p.2

/-- The fuel is enough for the value, and every string in it is in the
escape-free fragment. -/
def goodF : Nat → JVal → Bool
  | 0, _ => false
  | fuel+1, v =>
    match v with
    | JVal.null => true
    | JVal.bool _ => true
    | JVal.num _ => true
    | JVal.str s => strOK s
    | JVal.arr xs => xs.all (fun x => goodF fuel x)
    | JVal.obj fs => fs.all (fun p => strOK p.1 && goodF fuel p.2)

/-- Value of a run of decimal digits. -/
def digitsVal (ds : List Char) : Nat :=
  ds.foldl (fun a d => 10 * a + (d.toNat - 48)) 0

/-- CPython str.replace's scan: non-overlapping matches, left to right. -/
def replaceCore : Nat → List Char → List Char → List Char → List Char
  | 0, _, _, s => s
  | _+1, _, _, [] => []
  | fuel+1, pat, new, c :: t =>
    if pat.isPrefixOf (c :: t) then
      new ++ replaceCore fuel pat new ((c :: t).drop pat.length)
    else c :: replaceCore fuel pat new t

/-- `str.replace(old, new)`.  CPython with an empty `old` interleaves
`new` around every character; that case cannot arise under the theorems
below, where the pattern never occurs in the subject while the empty
pattern occurs in every string, so it is mapped to the identity here. -/
def strReplace (pat new s : List Char) : List Char :=
  if pat.isEmpty then s else replaceCore (s.length + 1) pat new s

/-- Substring occurrence, python's `in`. -/
def occursB (pat s : List Char) : Bool :=
  s.tails.any (fun t => pat.isPrefixOf t)

/-- The `for old, new in replacements.items(): workflow_str =
workflow_str.replace(old, new)` loop of create_workflow (lines 243-245);
the table holds get_environment_replacements' pairs in insertion order. -/
def foldReplace (table : List (List Char × List Char)) (s : List Char) : List Char :=
  table.foldl (fun acc p => strReplace p.1 p.2 acc) s

mutual

/-- json.loads on the canonical text json.dumps emits (the only strings
this step feeds it when no replacement fires): one JSON value, returning
the unconsumed suffix. -/
def parseVal : Nat → List Char → Option (JVal × List Char)
  | 0, _ => none
  | fuel+1, cs =>
    match cs with
    | [] => none
    | c :: t =>
      if c = 'n' then
        if t.take 3 = ['u', 'l', 'l'] then some (JVal.null, t.drop 3) else none
      else if c = 't' then
        if t.take 3 = ['r', 'u', 'e'] then some (JVal.bool true, t.drop 3) else none
      else if c = 'f' then
        if t.take 4 = ['a', 'l', 's', 'e'] then some (JVal.bool false, t.drop 4) else none
      else if c = '"' then
        let sd := t.takeWhile (fun d => d != '"')
        let r1 := t.dropWhile (fun d => d != '"')
        if r1.head? = some '"' then some (JVal.str (String.mk sd), r1.tail) else none
      else if c = '-' then
        let ds := t.takeWhile Char.isDigit
        if ds.isEmpty then none
        else some (JVal.num (-(digitsVal ds : Int)), t.dropWhile Char.isDigit)
      else if c = '[' then
        match parseItems fuel t with
        | some (xs, r) => if r.head? = some ']' then some (JVal.arr xs, r.tail) else none
        | none => none
      else if c = '\x7b' then
        match parseFields fuel t with
        | some (fs, r) => if r.head? = some '\x7d' then some (JVal.obj fs, r.tail) else none
        | none => none
      else if c.isDigit then
        some (JVal.num ((digitsVal ((c :: t).takeWhile Char.isDigit) : Nat) : Int),
          (c :: t).dropWhile Char.isDigit)
      else none

/-- Comma-separated values up to a closing bracket (not consumed). -/
def parseItems : Nat → List Char → Option (List JVal × List Char)
  | 0, _ => none
  | fuel+1, cs =>
    if cs.head? = some ']' then some ([], cs)
    else
      match parseVal fuel cs with
      | some (v, rest) =>
        if rest.take 2 = [',', ' '] then
          match parseItems fuel (rest.drop 2) with
          | some (xs, r2) => some (v :: xs, r2)
          | none => none
        else some ([v], rest)
      | none => none

/-- Comma-separated members up to a closing brace (not consumed). -/
def parseFields : Nat → List Char → Option (List (String × JVal) × List Char)
  | 0, _ => none
  | fuel+1, cs =>
    if cs.head? = some '\x7d' then some ([], cs)
    else
      match cs with
      | [] => none
      | c :: t =>
        if c = '"' then
          let kd := t.takeWhile (fun d => d != '"')
          let r1 := t.dropWhile (fun d => d != '"')
          if r1.take 3 = ['"', ':', ' '] then
            match parseVal fuel (r1.drop 3) with
            | some (v, rest) =>
              if rest.take 2 = [',', ' '] then
                match parseFields fuel (rest.drop 2) with
                | some (fs, r2) => some ((String.mk kd, v) :: fs, r2)
                | none => none
              else some ([(String.mk kd, v)], rest)
            | none => none
          else none
        else none

end

/-- json.loads: the whole input must be one value (json raises otherwise,
modelled as none). -/
def loadsJ (cs : List Char) : Option JVal :=
  match parseVal (cs.length + 1) cs with
  | some (v, []) => some v
  | _ => none

/-- create_workflow lines 241-250: dumps, the replacement loop, loads,
and the `except (TypeError, ValueError)` fallback that keeps the original
definition. -/
def literalReplaceStep (table : List (List Char × List Char)) (fuel : Nat) (d : JVal) : JVal :=
  match loadsJ (foldReplace table (dumpsF fuel d)) with
  | some v => v
  | none => d

/-- The characters that may legally follow a complete serialized value:
end of input, an item separator, or a closing bracket or brace. -/
def sepHead : List Char → Bool
  | [] => true
  | c :: _ => c == ',' || c == ']' || c == '\x7d'

theorem alookup_append {α : Type} (l₁ l₂ : List (String × α)) (k : String) :
    alookup (l₁ ++ l₂) k =
      match alookup l₁ k with
      | some v => some v
      | none => alookup l₂ k := by
  induction l₁ with
  | nil => simp [alookup]
  | cons p t ih =>
    by_cases h : p.1 = k <;> simp [alookup, h, ih]

theorem alookup_eq_none_of_not_mem {α : Type} (l : List (String × α)) (k : String)
    (h : k ∉ akeys l) : alookup l k = none := by
  induction l with
  | nil => rfl
  | cons p t ih =>
    simp only [akeys, List.map_cons, List.mem_cons, not_or] at h
    rw [alookup, if_neg (fun he : p.1 = k => h.1 he.symm)]
    exact ih (by simpa [akeys] using h.2)

theorem alookup_aset_self {α : Type} (l : List (String × α)) (k : String) (v : α) :
    alookup (aset l k v) k = some v := by
  unfold aset
  by_cases h : k ∈ akeys l
  · rw [if_pos h]
    induction l with
    | nil => simp [akeys] at h
    | cons p t ih =>
      by_cases hp : p.1 = k
      · simp [alookup, hp]
      · simp only [akeys, List.map_cons, List.mem_cons] at h
        rcases h with h | h
        · exact absurd h.symm hp
        · simp only [List.map_cons, if_neg hp]
          rw [alookup, if_neg hp]
          exact ih h
  · rw [if_neg h, alookup_append, alookup_eq_none_of_not_mem l k h]
    simp [alookup]

theorem alookup_map_overwrite_ne {α : Type} (l : List (String × α)) (k k' : String) (v : α)
    (hne : k ≠ k') :
    alookup (l.map (fun p => if p.1 = k then (k, v) else p)) k' = alookup l k' := by
  induction l with
  | nil => rfl
  | cons p t ih =>
    by_cases hp : p.1 = k
    · simp only [List.map_cons, if_pos hp]
      rw [alookup, alookup, if_neg hne, if_neg (by rw [hp]; exact hne)]
      exact ih
    · simp only [List.map_cons, if_neg hp]
      rw [alookup, alookup]
      by_cases hp' : p.1 = k'
      · simp [hp']
      · simp only [if_neg hp']
        exact ih

theorem alookup_aset_ne {α : Type} (l : List (String × α)) (k k' : String) (v : α)
    (hne : k ≠ k') : alookup (aset l k v) k' = alookup l k' := by
  unfold aset
  by_cases h : k ∈ akeys l
  · rw [if_pos h]
    exact alookup_map_overwrite_ne l k k' v hne
  · rw [if_neg h, alookup_append]
    cases hl : alookup l k' with
    | some w => rfl
    | none => simp [alookup, hne]

/-- Membership of a key after a dict write. -/
theorem mem_akeys_aset {α : Type} (l : List (String × α)) (k a : String) (v : α) :
    a ∈ akeys (aset l k v) ↔ a ∈ akeys l ∨ a = k := by
  unfold aset
  by_cases h : k ∈ akeys l
  · rw [if_pos h]
    unfold akeys
    simp only [List.map_map, List.mem_map, Function.comp]
    constructor
    · rintro ⟨p, hp, hval⟩
      by_cases hpk : p.1 = k
      · right
        simp only [if_pos hpk] at hval
        exact hval.symm
      · left
        simp only [if_neg hpk] at hval
        exact ⟨p, hp, hval⟩
    · rintro (⟨p, hp, hval⟩ | rfl)
      · refine ⟨p, hp, ?_⟩
        by_cases hpk : p.1 = k
        · simp only [if_pos hpk]
          rw [← hval, hpk]
        · simp only [if_neg hpk]
          exact hval
      · unfold akeys at h
        simp only [List.mem_map] at h
        obtain ⟨p, hp, hpk⟩ := h
        exact ⟨p, hp, by simp [hpk]⟩
  · rw [if_neg h]
    unfold akeys
    simp only [List.map_append, List.mem_append, List.map_cons, List.map_nil,
      List.mem_singleton]

/-- The keys of a dict stay duplicate-free under writes (the CPython dict
invariant; every document the engine builds starts from an empty dict). -/
theorem nodup_akeys_aset {α : Type} (l : List (String × α)) (k : String) (v : α)
    (h : (akeys l).Nodup) : (akeys (aset l k v)).Nodup := by
  unfold aset
  by_cases hmem : k ∈ akeys l
  · rw [if_pos hmem]
    unfold akeys at h ⊢
    have hfun : ∀ p : String × α,
        ((fun p => if p.1 = k then (k, v) else p) p).1 = p.1 := by
      intro p
      by_cases hp : p.1 = k
      · simp [hp]
      · simp [hp]
    rw [List.map_map]
    have : (Prod.fst ∘ fun p : String × α => if p.1 = k then (k, v) else p) = Prod.fst := by
      funext p
      exact hfun p
    rw [this]
    exact h
  · rw [if_neg hmem]
    unfold akeys at h hmem ⊢
    rw [List.map_append]
    simp only [List.map_cons, List.map_nil]
    rw [List.nodup_append]
    refine ⟨h, List.nodup_singleton k, ?_⟩
    intro a ha hb
    simp only [List.mem_singleton] at hb
    subst hb
    exact hmem ha

/-! Supporting character facts for the analysis of `credMatch`. -/

theorem char_toLower_toNat (c : Char) :
    (Char.toLower c).toNat = if 65 ≤ c.toNat ∧ c.toNat ≤ 90 then c.toNat + 32 else c.toNat := by
  unfold Char.toLower
  split
  · rename_i h
    rw [if_pos (by omega)]
    have hvalid : (c.toNat + 32).isValidChar := Or.inl (by omega)
    have hofnat : Char.ofNat (c.toNat + 32) = Char.ofNatAux (c.toNat + 32) hvalid := by
      unfold Char.ofNat
      rw [dif_pos hvalid]
    rw [hofnat]
    simp [Char.ofNatAux, Char.toNat, UInt32.toNat]
  · rename_i h
    rw [if_neg (by omega)]

theorem char_eq_of_toNat_eq {c d : Char} (h : c.toNat = d.toNat) : c = d := by
  have := congrArg Char.ofNat h
  rwa [Char.ofNat_toNat, Char.ofNat_toNat] at this

theorem toLower_eq_space {c : Char} (h : Char.toLower c = ' ') : c = ' ' := by
  have h2 := congrArg Char.toNat h
  rw [char_toLower_toNat] at h2
  have hsp : (' ' : Char).toNat = 32 := by decide
  rw [hsp] at h2
  split at h2
  · omega
  · exact char_eq_of_toNat_eq (by rw [h2, hsp])

/-- No space survives in a first token. -/
theorem space_not_mem_firstToken (s : String) : ' ' ∉ (firstToken s).data := by
  intro hmem
  have hall := List.all_takeWhile (p := fun c => c != ' ') (l := s.data)
  rw [List.all_eq_true] at hall
  have := hall ' ' hmem
  simp at this

/-- Core of the dead-branch analysis: if the target string is space-free,
an underscores-to-spaces variant of `l` can only agree with it (after
lowercasing) when `l` itself does. -/
theorem map_toLower_underscore_subsumed :
    ∀ (l m : List Char), ' ' ∉ m →
      l.map (fun c => Char.toLower (if c = '_' then ' ' else c)) = m.map Char.toLower →
      l.map Char.toLower = m.map Char.toLower := by
  intro l
  induction l with
  | nil =>
    intro m _ h
    cases m with
    | nil => rfl
    | cons d m' => simp at h
  | cons c l' ih =>
    intro m hm h
    cases m with
    | nil => simp at h
    | cons d m' =>
      simp only [List.map_cons, List.cons.injEq] at h ⊢
      simp only [List.mem_cons, not_or] at hm
      refine ⟨?_, ih m' hm.2 h.2⟩
      by_cases hc : c = '_'
      · exfalso
        have h1 := h.1
        rw [hc] at h1
        have hred : ((if ('_' : Char) = '_' then ' ' else '_') : Char) = ' ' := by decide
        rw [hred] at h1
        have hsp : Char.toLower ' ' = ' ' := by decide
        rw [hsp] at h1
        exact hm.1 (toLower_eq_space h1.symm).symm
      · rw [if_neg hc] at h
        exact h.1

/-- The underscore/space branch of `credMatch` is subsumed by the direct
branch: since the node-side comparand is a first token (space-free), the
whole test reduces to case-insensitive equality of the two first tokens. -/
theorem credMatch_eq_first_token_case_insensitive (old_name cred_key : String) :
    credMatch (firstToken old_name) cred_key =
      (lowerStr (firstToken cred_key) == lowerStr (firstToken old_name)) := by
  unfold credMatch
  cases hdirect : (lowerStr (firstToken cred_key) == lowerStr (firstToken old_name)) with
  | true => simp [hdirect]
  | false =>
    simp only [hdirect, Bool.false_or]
    cases hu : (lowerStr (underscoreToSpace (firstToken cred_key)) ==
        lowerStr (firstToken old_name)) with
    | false => rfl
    | true =>
      exfalso
      rw [beq_iff_eq] at hu
      have hdata : (firstToken cred_key).data.map
          (fun c => Char.toLower (if c = '_' then ' ' else c)) =
          (firstToken old_name).data.map Char.toLower := by
        have := congrArg String.data hu
        simpa [lowerStr, underscoreToSpace, List.map_map, Function.comp] using this
      have := map_toLower_underscore_subsumed _ _
        (space_not_mem_firstToken old_name) hdata
      have hagree : lowerStr (firstToken cred_key) = lowerStr (firstToken old_name) := by
        unfold lowerStr
        exact congrArg String.mk this
      rw [hagree] at hdirect
      simp at hdirect

/-- C3, counterexample: the spec's flagship example fails on the code.  A
node credential declared "My Postgres DB Prod" is reduced to its first
space-token "My", while the mapping key "my_postgres_db" contains no space
and so is compared whole (even after replacing underscores by spaces it is
"my postgres db", not "my"); hence no match is found, the entry keeps its
old runtime-id "oldid", and it is NOT set to the mapped id "id1" as the
claim asserts. -/
theorem create_workflow_cred_example_no_match :
    resolveCredEntry [("my_postgres_db", "id1")]
        [("name", JVal.str "My Postgres DB Prod"), ("id", JVal.str "oldid")] =
      some [("name", JVal.str "My Postgres DB Prod"), ("id", JVal.str "oldid")] ∧
    ∀ out, resolveCredEntry [("my_postgres_db", "id1")]
        [("name", JVal.str "My Postgres DB Prod"), ("id", JVal.str "oldid")] = some out →
      jget out "id" ≠ some (JVal.str "id1") := by
  refine ⟨rfl, ?_⟩
  intro out h
  rw [show resolveCredEntry [("my_postgres_db", "id1")]
        [("name", JVal.str "My Postgres DB Prod"), ("id", JVal.str "oldid")] =
      some [("name", JVal.str "My Postgres DB Prod"), ("id", JVal.str "oldid")] from rfl] at h
  injection h with h
  subst h
  intro hcontra
  rw [show jget [("name", JVal.str "My Postgres DB Prod"), ("id", JVal.str "oldid")] "id" =
      some (JVal.str "oldid") from rfl] at hcontra
  injection hcontra with hcontra
  injection hcontra with hcontra
  simp at hcontra

/-- C3, amended: credential resolution during rewrite compares the token
before the first space of the declared node credential name against the
token before the first space of each mapping key, case-insensitively, taking
the first matching key in insertion order and setting the entry's runtime-id
to its mapped id; with no match the entry is left untouched.  The source's
additional underscores-to-spaces comparison can never succeed when the
direct one fails (the name-side token is space-free), so underscore/space
equivalence never takes effect and "My Postgres DB Prod" does not match
"my_postgres_db". -/
theorem resolveCredEntry_first_token_matching
    (m : List (String × String)) (cred_data : JObj) (old_name : String)
    (hname : jget cred_data "name" = some (JVal.str old_name)) :
    resolveCredEntry m cred_data = some (
      match m.find? (fun p => lowerStr (firstToken p.1) == lowerStr (firstToken old_name)) with
      | some p => jset cred_data "id" (JVal.str p.2)
      | none => cred_data) := by
  unfold resolveCredEntry
  rw [hname]
  have hfun : (fun p : String × String => credMatch (firstToken old_name) p.1) =
      (fun p : String × String => lowerStr (firstToken p.1) == lowerStr (firstToken old_name)) := by
    funext p
    exact credMatch_eq_first_token_case_insensitive old_name p.1
  simp only [hfun]

/-- C3 witness: a concrete case-insensitive first-token match ("MY stuff"
against the declared "My Thing X") resolves the entry's id to the mapped
id. -/
theorem resolveCredEntry_first_token_matching_witness :
    resolveCredEntry [("MY stuff", "n7")]
        [("name", JVal.str "My Thing X"), ("id", JVal.str "old")] =
      some (
        match [("MY stuff", "n7")].find?
            (fun p => lowerStr (firstToken p.1) == lowerStr (firstToken "My Thing X")) with
        | some p => jset [("name", JVal.str "My Thing X"), ("id", JVal.str "old")] "id"
            (JVal.str p.2)
        | none => [("name", JVal.str "My Thing X"), ("id", JVal.str "old")]) :=
  resolveCredEntry_first_token_matching [("MY stuff", "n7")]
    [("name", JVal.str "My Thing X"), ("id", JVal.str "old")] "My Thing X" rfl

/-! Helper lemmas about the pipeline. -/

theorem jget_jset_self (o : JObj) (k : String) (v : JVal) : jget (jset o k v) k = some v :=
  alookup_aset_self o k v

theorem jget_jset_ne (o : JObj) (k k' : String) (v : JVal) (h : k ≠ k') :
    jget (jset o k v) k' = jget o k' :=
  alookup_aset_ne o k k' v h

/-- Through the pipeline, the payload's `settings` value is exactly the
five-key normalized dict built from the input's settings. -/
theorem buildCreatePayload_settings (credMap sf : List (String × String)) (wf p : JObj)
    (hp : buildCreatePayload credMap sf wf = some p) :
    ∃ s, settingsOf wf = some s ∧
      akeys p = ["name", "nodes", "connections", "settings"] ∧
      jget p "settings" = some (JVal.obj (mkSettings s)) := by
  unfold buildCreatePayload at hp
  rw [Option.bind_eq_some] at hp
  obtain ⟨wf2, hrw, hpay⟩ := hp
  unfold rewriteWorkflow at hrw
  rw [Option.bind_eq_some] at hrw
  obtain ⟨wf1, hns, hnodes⟩ := hrw
  unfold normalizeSettings at hns
  rw [Option.map_eq_some'] at hns
  obtain ⟨s, hs, hwf1⟩ := hns
  refine ⟨s, hs, ?_⟩
  have hwf1settings : jget wf1 "settings" = some (JVal.obj (mkSettings s)) := by
    rw [← hwf1]
    exact jget_jset_self wf "settings" (JVal.obj (mkSettings s))
  have hwf2settings : jget wf2 "settings" = some (JVal.obj (mkSettings s)) := by
    revert hnodes
    cases hn : jget wf1 "nodes" with
    | none =>
      intro hnodes
      injection hnodes with hnodes
      rw [← hnodes]
      exact hwf1settings
    | some nv =>
      cases nv with
      | arr ns =>
        intro hnodes
        rw [Option.map_eq_some'] at hnodes
        obtain ⟨ns2, _, hwf2⟩ := hnodes
        rw [← hwf2]
        rw [jget_jset_ne wf1 "nodes" "settings" (JVal.arr ns2) (by decide)]
        exact hwf1settings
      | null => intro hnodes; exact absurd hnodes (by simp)
      | bool b => intro hnodes; exact absurd hnodes (by simp)
      | num n => intro hnodes; exact absurd hnodes (by simp)
      | str s2 => intro hnodes; exact absurd hnodes (by simp)
      | obj o => intro hnodes; exact absurd hnodes (by simp)
  unfold createPayload at hpay
  revert hpay
  cases hname : jget wf2 "name" with
  | none => intro hpay; exact absurd hpay (by simp)
  | some n =>
    cases hnd : jget wf2 "nodes" with
    | none => intro hpay; exact absurd hpay (by simp)
    | some nd =>
      cases hc : jget wf2 "connections" with
      | none => intro hpay; exact absurd hpay (by simp)
      | some c =>
        intro hpay
        injection hpay with hpay
        subst hpay
        constructor
        · rfl
        · rw [hwf2settings]
          simp [jget, alookup]

/-- C10: for every input workflow definition for which the rewrite produces
a submission payload, the payload's top level holds exactly `name`, `nodes`,
`connections` and `settings`, and its settings dict holds exactly the five
normalized keys — any other incoming settings key (for instance `timezone`
or `callerPolicy`) is absent from the payload. -/
theorem create_workflow_payload_shape (credMap sf : List (String × String)) (wf p : JObj)
    (hp : buildCreatePayload credMap sf wf = some p) :
    akeys p = ["name", "nodes", "connections", "settings"] ∧
    ∃ out, jget p "settings" = some (JVal.obj out) ∧
      akeys out = ["saveExecutionProgress", "saveManualExecutions", "saveDataErrorExecution",
        "executionTimeout", "errorWorkflow"] ∧
      jget out "timezone" = none ∧ jget out "callerPolicy" = none := by
  obtain ⟨s, _, hkeys, hsettings⟩ := buildCreatePayload_settings credMap sf wf p hp
  refine ⟨hkeys, mkSettings s, hsettings, rfl, ?_, ?_⟩
  · simp [mkSettings, jget, alookup]
  · simp [mkSettings, jget, alookup]

/-- C10 witness: a definition whose settings carry a `timezone` key; the
payload drops it and keeps exactly the four top-level and five settings
keys. -/
theorem create_workflow_payload_shape_witness :
    akeys [("name", JVal.str "W"), ("nodes", JVal.arr []), ("connections", JVal.obj []),
        ("settings", JVal.obj (mkSettings [("timezone", JVal.str "UTC")]))] =
      ["name", "nodes", "connections", "settings"] ∧
    ∃ out, jget [("name", JVal.str "W"), ("nodes", JVal.arr []), ("connections", JVal.obj []),
        ("settings", JVal.obj (mkSettings [("timezone", JVal.str "UTC")]))] "settings" =
        some (JVal.obj out) ∧
      akeys out = ["saveExecutionProgress", "saveManualExecutions", "saveDataErrorExecution",
        "executionTimeout", "errorWorkflow"] ∧
      jget out "timezone" = none ∧ jget out "callerPolicy" = none :=
  create_workflow_payload_shape [] []
    [("name", JVal.str "W"), ("nodes", JVal.arr []), ("connections", JVal.obj []),
     ("settings", JVal.obj [("timezone", JVal.str "UTC")])] _ rfl

/-- Reading the normalized settings dict: each of the five keys carries the
incoming value when one was present and the source's default otherwise. -/
theorem jget_mkSettings (s : JObj) (k : String)
    (hk : k ∈ ["saveExecutionProgress", "saveManualExecutions", "saveDataErrorExecution",
      "executionTimeout", "errorWorkflow"]) :
    jget (mkSettings s) k = some ((jget s k).getD (settingsDefault k)) := by
  simp only [List.mem_cons, List.mem_singleton, List.not_mem_nil, or_false] at hk
  rcases hk with rfl | rfl | rfl | rfl | rfl <;>
    simp [mkSettings, jget, alookup, settingsDefault]

/-- C7: settings normalization fills `saveExecutionProgress`,
`saveManualExecutions` (default true), `saveDataErrorExecution` (default
"all"), `executionTimeout` (default 3600) and `errorWorkflow` (default "")
only where the incoming settings lack the key; an explicitly present value
reaches the submission payload unchanged (`Option.getD` keeps a present
value and substitutes the default only for `none`). -/
theorem create_workflow_settings_normalization (credMap sf : List (String × String))
    (wf p s : JObj) (k : String)
    (hsettings : jget wf "settings" = some (JVal.obj s))
    (hp : buildCreatePayload credMap sf wf = some p)
    (hk : k ∈ ["saveExecutionProgress", "saveManualExecutions", "saveDataErrorExecution",
      "executionTimeout", "errorWorkflow"]) :
    ∃ out, jget p "settings" = some (JVal.obj out) ∧
      jget out k = some ((jget s k).getD (settingsDefault k)) := by
  obtain ⟨s2, hs2, _, hpset⟩ := buildCreatePayload_settings credMap sf wf p hp
  have hs2eq : s2 = s := by
    unfold settingsOf at hs2
    rw [hsettings] at hs2
    injection hs2 with hs2
    exact hs2.symm
  subst hs2eq
  exact ⟨mkSettings s2, hpset, jget_mkSettings s2 k hk⟩

/-- C7 witness: an explicit `executionTimeout` of 60 seconds survives the
normalization unchanged (the default 3600 is not substituted), while e.g.
`errorWorkflow`, absent here, would be defaulted. -/
theorem create_workflow_settings_normalization_witness :
    ∃ out, jget [("name", JVal.str "W"), ("nodes", JVal.arr []), ("connections", JVal.obj []),
        ("settings", JVal.obj (mkSettings [("executionTimeout", JVal.num 60)]))] "settings" =
        some (JVal.obj out) ∧
      jget out "executionTimeout" =
        some ((jget [("executionTimeout", JVal.num 60)] "executionTimeout").getD
          (settingsDefault "executionTimeout")) :=
  create_workflow_settings_normalization [] []
    [("name", JVal.str "W"), ("nodes", JVal.arr []), ("connections", JVal.obj []),
     ("settings", JVal.obj [("executionTimeout", JVal.num 60)])] _
    [("executionTimeout", JVal.num 60)] "executionTimeout" rfl rfl (by simp)

/-- C4, counterexample: a `toolWorkflow` node referencing a mapped workflow
by BARE STRING id is left unchanged by the rewrite — the source only handles
the object shape for this node type (main.py lines 298-308 test
`isinstance(old_workflow_id, dict)` only), so the claim's "in both the
string-id shape and the object-id shape ... for every invoking node in
either known node type" fails here: the reference keeps the old id "W1"
instead of the mapped "N1". -/
theorem toolWorkflow_string_reference_not_remapped :
    rewriteNodeSub [("W1", "N1")]
        [("type", JVal.str toolWorkflowType),
         ("parameters", JVal.obj [("workflowId", JVal.str "W1")])] =
      some [("type", JVal.str toolWorkflowType),
         ("parameters", JVal.obj [("workflowId", JVal.str "W1")])] ∧
    ∀ out, rewriteNodeSub [("W1", "N1")]
        [("type", JVal.str toolWorkflowType),
         ("parameters", JVal.obj [("workflowId", JVal.str "W1")])] = some out →
      jget out "parameters" ≠ some (JVal.obj [("workflowId", JVal.str "N1")]) := by
  refine ⟨rfl, ?_⟩
  intro out h
  rw [show rewriteNodeSub [("W1", "N1")]
      [("type", JVal.str toolWorkflowType),
       ("parameters", JVal.obj [("workflowId", JVal.str "W1")])] =
    some [("type", JVal.str toolWorkflowType),
       ("parameters", JVal.obj [("workflowId", JVal.str "W1")])] from rfl] at h
  injection h with h
  subst h
  intro hcontra
  simp [jget, alookup, toolWorkflowType] at hcontra

/-- C4, amended: `executeWorkflow` nodes have both reference shapes
remapped; `toolWorkflow` nodes only the object shape (a string-shaped
reference there is left untouched even when mapped).  A mapped string
reference is replaced by the mapped id; a mapped, non-empty object-shaped
`value` is replaced and a present `cachedResultName` is truncated to its
first space-token; an unmapped reference is left unchanged.  And the
two-workflow scenario holds as claimed: the graph is `{W1: [], W2: [W1]}`,
the order is `[W1, W2]`, and rewriting `W2`'s invoking node with the
recorded mapping `W1 ↦ N1` replaces the invoked id by `N1`. -/
theorem rewriteNodeSub_remap (sf : List (String × String)) (node params : JObj) (t : String)
    (htype : jget node "type" = some (JVal.str t))
    (hparams : jget node "parameters" = some (JVal.obj params)) :
    (∀ wid nid, t = execWorkflowType → jget params "workflowId" = some (JVal.str wid) →
      alookup sf wid = some nid →
      rewriteNodeSub sf node =
        some (jset node "parameters" (JVal.obj (jset params "workflowId" (JVal.str nid))))) ∧
    (∀ ref v nid s, (t = execWorkflowType ∨ t = toolWorkflowType) →
      jget params "workflowId" = some (JVal.obj ref) →
      jget ref "value" = some (JVal.str v) → v ≠ "" → alookup sf v = some nid →
      jget ref "cachedResultName" = some (JVal.str s) →
      rewriteNodeSub sf node =
        some (jset node "parameters" (JVal.obj (jset params "workflowId"
          (JVal.obj (jset (jset ref "value" (JVal.str nid)) "cachedResultName"
            (JVal.str (firstToken s)))))))) ∧
    (∀ wid, jget params "workflowId" = some (JVal.str wid) → alookup sf wid = none →
      rewriteNodeSub sf node = some node) ∧
    (∀ wid, t = toolWorkflowType → jget params "workflowId" = some (JVal.str wid) →
      rewriteNodeSub sf node = some node) ∧
    (build_dependency_graph [scenarioW1, scenarioW2] = some [("W1", []), ("W2", ["W1"])] ∧
      get_workflow_order [("W1", []), ("W2", ["W1"])] = Except.ok ["W1", "W2"] ∧
      rewriteNodeSub [("W1", "N1")] scenarioW2Node =
        some (jset scenarioW2Node "parameters"
          (JVal.obj [("workflowId", JVal.str "N1")]))) := by
  have hsfne : ∀ {wid : String} {nid : String}, alookup sf wid = some nid → sf.isEmpty = false := by
    intro wid nid hl
    cases sf with
    | nil => exact absurd hl (by simp [alookup])
    | cons p rest => rfl
  refine ⟨?_, ?_, ?_, ?_, rfl, rfl, rfl⟩
  · intro wid nid ht hwid hl
    subst ht
    simp [rewriteNodeSub, hsfne hl, htype, hparams, hwid, hl]
  · intro ref v nid s ht hwid hv hvne hl hcached
    have hobjref : rewriteObjRef sf ref =
        some (jset (jset ref "value" (JVal.str nid)) "cachedResultName"
          (JVal.str (firstToken s))) := by
      simp [rewriteObjRef, hv, hvne, hl, truncateCachedName,
        jget_jset_ne ref "value" "cachedResultName" (JVal.str nid) (by decide), hcached]
    rcases ht with ht | ht <;> subst ht <;>
      simp [rewriteNodeSub, hsfne hl, htype, hparams, hwid, hobjref,
        execWorkflowType, toolWorkflowType]
  · intro wid hwid hl
    cases hsf : sf.isEmpty with
    | true => simp [rewriteNodeSub, hsf]
    | false =>
      by_cases ht : t = execWorkflowType
      · subst ht
        simp [rewriteNodeSub, hsf, htype, hparams, hwid, hl]
      · by_cases ht2 : t = toolWorkflowType
        · subst ht2
          simp [rewriteNodeSub, hsf, htype, hparams, hwid, hl,
            execWorkflowType, toolWorkflowType]
        · simp [rewriteNodeSub, hsf, htype, hparams, ht, ht2]
  · intro wid ht hwid
    subst ht
    cases hsf : sf.isEmpty with
    | true => simp [rewriteNodeSub, hsf]
    | false =>
      simp [rewriteNodeSub, hsf, htype, hparams, hwid, execWorkflowType, toolWorkflowType]

/-- C4 witness: the scenario node of `W2` (an `executeWorkflow` node with
string reference "W1") run through the amended theorem: with the mapping
`W1 ↦ N1` recorded, the reference is replaced by "N1". -/
theorem rewriteNodeSub_remap_witness :
    rewriteNodeSub [("W1", "N1")] scenarioW2Node =
      some (jset scenarioW2Node "parameters"
        (JVal.obj (jset [("workflowId", JVal.str "W1")] "workflowId" (JVal.str "N1")))) :=
  (rewriteNodeSub_remap [("W1", "N1")] scenarioW2Node
      [("workflowId", JVal.str "W1")] execWorkflowType rfl rfl).1
    "W1" "N1" rfl rfl rfl

/-- C5: on a project-supporting target, when the remote create succeeds and
the project transfer fails, the just-created workflow is deleted remotely,
the operation returns no new id, and no ledger record is written for that
workflow; moreover (for any outcome of the remote create) a workflow ledger
record appears in the trace only when the create succeeded and the transfer
succeeded, and then only as the final event, after the transfer. -/
theorem create_workflow_transfer_rollback (projectId name wid : String)
    (transferOk : String → Bool) (createRes : Option String)
    (hcreate : createRes = some wid) (htrans : transferOk wid = false) :
    createWorkflowSubmit true projectId name createRes transferOk =
      (none, [RemoteEvent.wfCreate name, RemoteEvent.wfTransfer wid projectId,
        RemoteEvent.wfDelete wid]) ∧
    (∀ ty id nm, RemoteEvent.ledgerAdd ty id nm ∉
      (createWorkflowSubmit true projectId name createRes transferOk).2) ∧
    (∀ cr : Option String, ∀ id nm,
      RemoteEvent.ledgerAdd RType.workflows id nm ∈
        (createWorkflowSubmit true projectId name cr transferOk).2 →
      cr = some id ∧ transferOk id = true ∧
        (createWorkflowSubmit true projectId name cr transferOk).2 =
          [RemoteEvent.wfCreate name, RemoteEvent.wfTransfer id projectId,
            RemoteEvent.ledgerAdd RType.workflows id nm]) := by
  subst hcreate
  refine ⟨by simp [createWorkflowSubmit, htrans], ?_, ?_⟩
  · intro ty id nm
    simp [createWorkflowSubmit, htrans]
  · intro cr id nm hmem
    cases cr with
    | none => simp [createWorkflowSubmit] at hmem
    | some wid2 =>
      cases htr2 : transferOk wid2 with
      | true =>
        simp [createWorkflowSubmit, htr2] at hmem
        obtain ⟨hid, hnm⟩ := hmem
        subst hid
        subst hnm
        exact ⟨rfl, htr2, by simp [createWorkflowSubmit, htr2]⟩
      | false =>
        simp [createWorkflowSubmit, htr2] at hmem

/-- C5 witness: concrete failed transfer — result `none`, trace
create-transfer-delete, no ledger write. -/
theorem create_workflow_transfer_rollback_witness :
    createWorkflowSubmit true "p1" "Wf" (some "w1") (fun _ => false) =
      (none, [RemoteEvent.wfCreate "Wf", RemoteEvent.wfTransfer "w1" "p1",
        RemoteEvent.wfDelete "w1"]) ∧
    (∀ ty id nm, RemoteEvent.ledgerAdd ty id nm ∉
      (createWorkflowSubmit true "p1" "Wf" (some "w1") (fun _ => false)).2) ∧
    (∀ cr : Option String, ∀ id nm,
      RemoteEvent.ledgerAdd RType.workflows id nm ∈
        (createWorkflowSubmit true "p1" "Wf" cr (fun _ => false)).2 →
      cr = some id ∧ (fun _ : String => false) id = true ∧
        (createWorkflowSubmit true "p1" "Wf" cr (fun _ => false)).2 =
          [RemoteEvent.wfCreate "Wf", RemoteEvent.wfTransfer id "p1",
            RemoteEvent.ledgerAdd RType.workflows id nm]) :=
  create_workflow_transfer_rollback "p1" "Wf" "w1" (fun _ => false) (some "w1") rfl rfl

/-! ## Properties of the Topological Order Resolver -/

theorem readyOf_sublist (R : DepGraph) : (readyOf R).Sublist R :=
  List.filter_sublist R

theorem peelReady_sublist (R : DepGraph) : (peelReady R).Sublist R :=
  List.filter_sublist R

theorem entry_eq_of_key_eq {R : DepGraph} (hnd : (akeys R).Nodup)
    {p q : String × List String} (hp : p ∈ R) (hq : q ∈ R) (h : p.1 = q.1) : p = q := by
  unfold akeys at hnd
  exact List.inj_on_of_nodup_map hnd hp hq h

theorem mem_akeys_iff {α : Type} {R : List (String × α)} {d : String} :
    d ∈ akeys R ↔ ∃ q ∈ R, q.1 = d := by
  unfold akeys
  simp [List.mem_map]

/-- An entry with a dependency still keyed in `remaining` is not ready. -/
theorem isReadyEntry_eq_false_of_dep {R : DepGraph} {p : String × List String} {d : String}
    (hd : d ∈ p.2) (hdk : d ∈ akeys R) : isReadyEntry R p = false := by
  unfold isReadyEntry
  have hinner : R.any (fun q => q.1 == d) = true := by
    obtain ⟨q, hq, hq1⟩ := mem_akeys_iff.mp hdk
    exact List.any_eq_true.mpr ⟨q, hq, by simp [hq1]⟩
  have houter : p.2.any (fun dep => R.any (fun q => q.1 == dep)) = true :=
    List.any_eq_true.mpr ⟨d, hd, hinner⟩
  rw [houter]
  rfl

/-- A ready entry is one of `remaining` passing the readiness test. -/
theorem mem_readyOf {R : DepGraph} {p : String × List String} :
    p ∈ readyOf R ↔ p ∈ R ∧ isReadyEntry R p = true := by
  unfold readyOf
  exact List.mem_filter

/-- A non-ready entry of `remaining` survives the round (under the dict
key-uniqueness invariant). -/
theorem mem_peelReady_of_not_ready {R : DepGraph} (hnd : (akeys R).Nodup)
    {p : String × List String} (hp : p ∈ R) (hnr : isReadyEntry R p = false) :
    p ∈ peelReady R := by
  unfold peelReady
  rw [List.mem_filter]
  refine ⟨hp, ?_⟩
  rw [Bool.not_eq_true']
  rw [Bool.eq_false_iff]
  intro hany
  obtain ⟨q, hq, hq1⟩ := List.any_eq_true.mp hany
  have hqR := (mem_readyOf.mp hq).1
  have hqready := (mem_readyOf.mp hq).2
  have : q = p := entry_eq_of_key_eq hnd hqR hp (by simpa using hq1)
  rw [this] at hqready
  rw [hnr] at hqready
  exact Bool.false_ne_true hqready

/-- Under the key-uniqueness invariant, the peeled remainder is exactly the
non-ready part of `remaining`. -/
theorem peelReady_eq_filter_not_ready {R : DepGraph} (hnd : (akeys R).Nodup) :
    peelReady R = R.filter (fun p => !(isReadyEntry R p)) := by
  unfold peelReady
  apply List.filter_congr
  intro p hp
  cases hr : isReadyEntry R p with
  | true =>
    have hpready : p ∈ readyOf R := mem_readyOf.mpr ⟨hp, hr⟩
    have : (readyOf R).any (fun q => q.1 == p.1) = true :=
      List.any_eq_true.mpr ⟨p, hpready, by simp⟩
    rw [this]
  | false =>
    have : (readyOf R).any (fun q => q.1 == p.1) = false := by
      rw [Bool.eq_false_iff]
      intro hany
      obtain ⟨q, hq, hq1⟩ := List.any_eq_true.mp hany
      have hqR := (mem_readyOf.mp hq).1
      have hqready := (mem_readyOf.mp hq).2
      have : q = p := entry_eq_of_key_eq hnd hqR hp (by simpa using hq1)
      rw [this, hr] at hqready
      exact Bool.false_ne_true hqready
    rw [this]

/-- The keys of a round split `remaining`'s keys into the ready ids and the
peeled remainder's keys. -/
theorem akeys_perm_ready_peel {R : DepGraph} (hnd : (akeys R).Nodup) :
    (akeys R).Perm (akeys (readyOf R) ++ akeys (peelReady R)) := by
  rw [peelReady_eq_filter_not_ready hnd]
  have hperm := List.filter_append_perm (isReadyEntry R) R
  have hmap := hperm.map Prod.fst
  rw [List.map_append] at hmap
  unfold akeys readyOf
  exact hmap.symm

/-- A round with a non-empty ready set strictly shrinks `remaining`. -/
theorem length_peelReady_lt {R : DepGraph} (hne : readyOf R ≠ []) :
    (peelReady R).length < R.length := by
  obtain ⟨r, hr⟩ : ∃ r, r ∈ readyOf R := by
    cases h : readyOf R with
    | nil => exact absurd h hne
    | cons a t => exact ⟨a, by simp [h]⟩
  have hrR : r ∈ R := (mem_readyOf.mp hr).1
  have hnotpeel : r ∉ peelReady R := by
    intro hmem
    have hpred := (List.mem_filter.mp hmem).2
    have hany : (readyOf R).any (fun q => q.1 == r.1) = true :=
      List.any_eq_true.mpr ⟨r, hr, by simp⟩
    rw [hany] at hpred
    exact Bool.false_ne_true hpred
  have hsub := peelReady_sublist R
  rcases Nat.lt_or_ge (peelReady R).length R.length with h | h
  · exact h
  · exfalso
    have heq : (peelReady R).length = R.length := Nat.le_antisymm hsub.length_le h
    have := hsub.eq_of_length heq
    rw [this] at hnotpeel
    exact hnotpeel hrR

/-- A non-empty list has an element minimizing any `Nat` measure. -/
theorem exists_min_key {α : Type} (f : α → Nat) :
    ∀ (l : List α), l ≠ [] → ∃ m, m ∈ l ∧ ∀ x ∈ l, f m ≤ f x := by
  intro l
  induction l with
  | nil => intro h; exact absurd rfl h
  | cons a t ih =>
    intro _
    by_cases hte : t = []
    · subst hte
      refine ⟨a, List.mem_cons_self a [], ?_⟩
      intro x hx
      have hxa : x = a := by simpa using hx
      rw [hxa]
    · obtain ⟨m, hm, hmin⟩ := ih hte
      by_cases hfa : f a ≤ f m
      · refine ⟨a, List.mem_cons_self a t, ?_⟩
        intro x hx
        rcases List.mem_cons.mp hx with rfl | hx2
        · exact Nat.le_refl _
        · exact Nat.le_trans hfa (hmin x hx2)
      · refine ⟨m, List.mem_cons_of_mem a hm, ?_⟩
        intro x hx
        rcases List.mem_cons.mp hx with rfl | hx2
        · exact Nat.le_of_lt (Nat.lt_of_not_le hfa)
        · exact hmin x hx2

/-- With a rank function witnessing acyclicity, every non-empty `remaining`
has a ready entry: an entry of minimal rank cannot have an in-set
dependency. -/
theorem readyOf_ne_nil_of_rank {R : DepGraph} (rank : String → Nat) (hne : R ≠ [])
    (hrank : ∀ p ∈ R, ∀ d ∈ p.2, d ∈ akeys R → rank d < rank p.1) :
    readyOf R ≠ [] := by
  obtain ⟨m, hm, hmin⟩ := exists_min_key (fun p => rank p.1) R hne
  have hready : isReadyEntry R m = true := by
    unfold isReadyEntry
    rw [Bool.not_eq_true']
    rw [Bool.eq_false_iff]
    intro hany
    obtain ⟨d, hd, hdany⟩ := List.any_eq_true.mp hany
    obtain ⟨q, hq, hq1⟩ := List.any_eq_true.mp hdany
    have hdk : d ∈ akeys R := mem_akeys_iff.mpr ⟨q, hq, by simpa using hq1⟩
    have hlt := hrank m hm d hd hdk
    have hge := hmin q hq
    have : rank d = rank q.1 := by rw [show q.1 = d from by simpa using hq1]
    omega
  intro hnil
  have : m ∈ readyOf R := mem_readyOf.mpr ⟨hm, hready⟩
  rw [hnil] at this
  exact List.not_mem_nil m this

/-- Fuel above `remaining.length` always suffices: with a rank function the
loop terminates with an order. -/
theorem kahnRoundsF_ok_of_rank :
    ∀ (fuel : Nat) (R : DepGraph) (rank : String → Nat), R.length < fuel →
      (∀ p ∈ R, ∀ d ∈ p.2, d ∈ akeys R → rank d < rank p.1) →
      ∃ rounds, kahnRoundsF fuel R = Except.ok rounds := by
  intro fuel
  induction fuel with
  | zero => intro R rank h _; omega
  | succ f ih =>
    intro R rank hlen hrank
    cases hRE : R.isEmpty with
    | true => exact ⟨[], by unfold kahnRoundsF; rw [hRE]; rfl⟩
    | false =>
      have hRne : R ≠ [] := by
        intro h
        rw [h] at hRE
        simp at hRE
      have hready := readyOf_ne_nil_of_rank rank hRne hrank
      have hreadyE : (readyOf R).isEmpty = false := by
        cases h : readyOf R with
        | nil => exact absurd h hready
        | cons a t => rfl
      have hlt := length_peelReady_lt hready
      have hrank2 : ∀ p ∈ peelReady R, ∀ d ∈ p.2, d ∈ akeys (peelReady R) → rank d < rank p.1 := by
        intro p hp d hd hdk
        have hpR : p ∈ R := (peelReady_sublist R).subset hp
        have hdkR : d ∈ akeys R := by
          unfold akeys at hdk ⊢
          exact ((peelReady_sublist R).map Prod.fst).subset hdk
        exact hrank p hpR d hd hdkR
      obtain ⟨rounds2, hok⟩ := ih (peelReady R) rank (by omega) hrank2
      refine ⟨akeys (readyOf R) :: rounds2, ?_⟩
      unfold kahnRoundsF
      rw [hRE, hreadyE, hok]
      rfl

/-- Everything a successful run of the peeling loop guarantees: the
flattened rounds are a permutation of the graph's keys; each round lists
equally-ready ids as an order-preserving sublist of the key (insertion)
order; and every dependency that is itself a key comes strictly before each
of its dependents. -/
theorem kahnRoundsF_ok_spec :
    ∀ (fuel : Nat) (R : DepGraph) (rounds : List (List String)),
      (akeys R).Nodup → kahnRoundsF fuel R = Except.ok rounds →
      rounds.flatten.Perm (akeys R) ∧
      (∀ r ∈ rounds, r.Sublist (akeys R)) ∧
      (∀ p ∈ R, ∀ d ∈ p.2, d ∈ akeys R →
        rounds.flatten.indexOf d < rounds.flatten.indexOf p.1) := by
  intro fuel
  induction fuel with
  | zero =>
    intro R rounds hnd hok
    unfold kahnRoundsF at hok
    cases hRE : R.isEmpty with
    | false =>
      rw [hRE] at hok
      exact absurd hok (by simp)
    | true =>
      rw [hRE] at hok
      have hR : R = [] := by
        cases R with
        | nil => rfl
        | cons a t => simp at hRE
      injection hok with hok
      subst hok
      subst hR
      refine ⟨List.Perm.refl _, by simp, by simp⟩
  | succ f ih =>
    intro R rounds hnd hok
    unfold kahnRoundsF at hok
    cases hRE : R.isEmpty with
    | true =>
      rw [hRE] at hok
      have hR : R = [] := by
        cases R with
        | nil => rfl
        | cons a t => simp at hRE
      injection hok with hok
      subst hok
      subst hR
      refine ⟨List.Perm.refl _, by simp, by simp⟩
    | false =>
      rw [hRE] at hok
      cases hreadyE : (readyOf R).isEmpty with
      | true =>
        rw [hreadyE] at hok
        exact absurd hok (by simp)
      | false =>
        rw [hreadyE] at hok
        cases hrec : kahnRoundsF f (peelReady R) with
        | error e =>
          rw [hrec] at hok
          exact absurd hok (by simp)
        | ok rounds2 =>
          rw [hrec] at hok
          injection hok with hok
          subst hok
          have hkeysub : (akeys (peelReady R)).Sublist (akeys R) := by
            unfold akeys
            exact (peelReady_sublist R).map Prod.fst
          have hndpeel : (akeys (peelReady R)).Nodup := hnd.sublist hkeysub
          obtain ⟨hperm2, hsub2, hord2⟩ := ih (peelReady R) rounds2 hndpeel hrec
          have hpermR := akeys_perm_ready_peel hnd
          refine ⟨?_, ?_, ?_⟩
          · rw [List.flatten_cons]
            exact (hperm2.append_left (akeys (readyOf R))).trans hpermR.symm
          · intro r hr
            rcases List.mem_cons.mp hr with rfl | hr2
            · unfold akeys
              exact (readyOf_sublist R).map Prod.fst
            · exact (hsub2 r hr2).trans hkeysub
          · intro p hp d hd hdk
            have hnready : isReadyEntry R p = false := isReadyEntry_eq_false_of_dep hd hdk
            have hpA : p.1 ∉ akeys (readyOf R) := by
              intro hmem
              obtain ⟨q, hq, hq1⟩ := mem_akeys_iff.mp hmem
              have hqR := (mem_readyOf.mp hq).1
              have hqready := (mem_readyOf.mp hq).2
              have heq : q = p := entry_eq_of_key_eq hnd hqR hp hq1
              rw [heq, hnready] at hqready
              exact Bool.false_ne_true hqready
            have hppeel : p ∈ peelReady R := mem_peelReady_of_not_ready hnd hp hnready
            rw [List.flatten_cons]
            by_cases hdA : d ∈ akeys (readyOf R)
            · rw [List.indexOf_append_of_mem hdA, List.indexOf_append_of_not_mem hpA]
              have h1 := List.indexOf_lt_length.mpr hdA
              omega
            · have hdpeel : d ∈ akeys (peelReady R) := by
                have hmem : d ∈ akeys (readyOf R) ++ akeys (peelReady R) :=
                  hpermR.mem_iff.mp hdk
                rcases List.mem_append.mp hmem with h | h
                · exact absurd h hdA
                · exact h
              have hord := hord2 p hppeel d hd hdpeel
              rw [List.indexOf_append_of_not_mem hdA, List.indexOf_append_of_not_mem hpA]
              omega

/-- C1: for every acyclic dependency graph — acyclicity witnessed by a rank
function strictly decreasing along in-key-set dependency edges, which for a
finite graph is equivalent to acyclicity — `get_workflow_order` succeeds
and returns the rounds' ids flattened in round order, where (a) the output
is a permutation of the graph's keys, (b) each round lists the
equally-ready workflows as an order-preserving sublist of the graph's
insertion (discovery) order, which with the purity of the function gives
determinism across repeated runs, and (c) every dependency that is itself a
key of the graph is placed strictly before each of its dependents —
dependencies outside the key set impose no constraint (they never block
readiness). -/
theorem get_workflow_order_acyclic (graph : DepGraph) (rank : String → Nat)
    (hnd : (akeys graph).Nodup)
    (hrank : ∀ p ∈ graph, ∀ d ∈ p.2, d ∈ akeys graph → rank d < rank p.1) :
    ∃ rounds, kahnRoundsF (graph.length + 1) graph = Except.ok rounds ∧
      get_workflow_order graph = Except.ok rounds.flatten ∧
      rounds.flatten.Perm (akeys graph) ∧
      (∀ r ∈ rounds, r.Sublist (akeys graph)) ∧
      (∀ p ∈ graph, ∀ d ∈ p.2, d ∈ akeys graph →
        rounds.flatten.indexOf d < rounds.flatten.indexOf p.1) := by
  obtain ⟨rounds, hok⟩ :=
    kahnRoundsF_ok_of_rank (graph.length + 1) graph rank (by omega) hrank
  obtain ⟨c1, c2, c3⟩ := kahnRoundsF_ok_spec (graph.length + 1) graph rounds hnd hok
  refine ⟨rounds, hok, ?_, c1, c2, c3⟩
  unfold get_workflow_order
  rw [hok]
  rfl

/-- C1 witness: the acyclic graph `{B: [A], A: [], C: [X]}` (`X` outside
the key set), ranked by `B ↦ 1, _ ↦ 0`; the resolver orders `A` and `C`
(equally ready, discovery order) before `B`. -/
theorem get_workflow_order_acyclic_witness :
    ∃ rounds,
      kahnRoundsF ([("B", ["A"]), ("A", []), ("C", ["X"])].length + 1)
          [("B", ["A"]), ("A", []), ("C", ["X"])] = Except.ok rounds ∧
      get_workflow_order [("B", ["A"]), ("A", []), ("C", ["X"])] =
        Except.ok rounds.flatten ∧
      rounds.flatten.Perm (akeys [("B", ["A"]), ("A", []), ("C", ["X"])]) ∧
      (∀ r ∈ rounds, r.Sublist (akeys [("B", ["A"]), ("A", []), ("C", ["X"])])) ∧
      (∀ p ∈ [("B", ["A"]), ("A", []), ("C", ["X"])], ∀ d ∈ p.2,
        d ∈ akeys [("B", ["A"]), ("A", []), ("C", ["X"])] →
        rounds.flatten.indexOf d < rounds.flatten.indexOf p.1) :=
  get_workflow_order_acyclic [("B", ["A"]), ("A", []), ("C", ["X"])]
    (fun s => if s = "B" then 1 else 0) (by decide) (by decide)

/-- The propositional reading of `CycleSetB`. -/
theorem cycleSetB_spec {g : DepGraph} {S : List String} (h : CycleSetB g S = true) :
    S ≠ [] ∧ ∀ x ∈ S, ∃ p ∈ g, p.1 = x ∧ ∃ y ∈ p.2, y ∈ S := by
  unfold CycleSetB at h
  rw [Bool.and_eq_true] at h
  obtain ⟨hne, hall⟩ := h
  constructor
  · intro hS
    rw [hS] at hne
    simp at hne
  · intro x hx
    have := List.all_eq_true.mp hall x hx
    obtain ⟨p, hp, hpx⟩ := List.any_eq_true.mp this
    rw [Bool.and_eq_true] at hpx
    obtain ⟨hpx1, hpy⟩ := hpx
    obtain ⟨y, hy, hyS⟩ := List.any_eq_true.mp hpy
    obtain ⟨z, hz, hzy⟩ := List.any_eq_true.mp hyS
    refine ⟨p, hp, by simpa using hpx1, y, hy, ?_⟩
    have : z = y := by simpa using hzy
    rw [← this]
    exact hz

/-- With a cycle set among its keys, the peeling loop can never empty
`remaining`: every member of the set keeps a non-ready entry, so the loop
(at any fuel) reports the cycle error. -/
theorem kahnRoundsF_error_of_cycleSet :
    ∀ (fuel : Nat) (R : DepGraph) (S : List String), (akeys R).Nodup →
      S ≠ [] → (∀ x ∈ S, ∃ p ∈ R, p.1 = x ∧ ∃ y ∈ p.2, y ∈ S) →
      kahnRoundsF fuel R = Except.error cycleErrorMsg := by
  intro fuel
  induction fuel with
  | zero =>
    intro R S hnd hSne hS
    have hRne : R.isEmpty = false := by
      obtain ⟨x, hx⟩ : ∃ x, x ∈ S := by
        cases S with
        | nil => exact absurd rfl hSne
        | cons a t => exact ⟨a, List.mem_cons_self a t⟩
      obtain ⟨p, hp, _⟩ := hS x hx
      cases R with
      | nil => exact absurd hp (List.not_mem_nil p)
      | cons a t => rfl
    unfold kahnRoundsF
    rw [hRne]
    rfl
  | succ f ih =>
    intro R S hnd hSne hS
    have hRne : R.isEmpty = false := by
      obtain ⟨x, hx⟩ : ∃ x, x ∈ S := by
        cases S with
        | nil => exact absurd rfl hSne
        | cons a t => exact ⟨a, List.mem_cons_self a t⟩
      obtain ⟨p, hp, _⟩ := hS x hx
      cases R with
      | nil => exact absurd hp (List.not_mem_nil p)
      | cons a t => rfl
    have hnotready : ∀ x ∈ S, ∀ p ∈ R, p.1 = x → isReadyEntry R p = false := by
      intro x hx p hp hpx
      obtain ⟨q, hq, hqx, y, hy, hyS⟩ := hS x hx
      have hqp : q = p := entry_eq_of_key_eq hnd hq hp (by rw [hqx, hpx])
      subst hqp
      obtain ⟨q2, hq2, hq2y, _, _, _⟩ := hS y hyS
      have hyk : y ∈ akeys R := mem_akeys_iff.mpr ⟨q2, hq2, hq2y⟩
      exact isReadyEntry_eq_false_of_dep hy hyk
    unfold kahnRoundsF
    rw [hRne]
    cases hreadyE : (readyOf R).isEmpty with
    | true => rfl
    | false =>
      have hinv2 : ∀ x ∈ S, ∃ p ∈ peelReady R, p.1 = x ∧ ∃ y ∈ p.2, y ∈ S := by
        intro x hx
        obtain ⟨p, hp, hpx, y, hy, hyS⟩ := hS x hx
        have hnr : isReadyEntry R p = false := hnotready x hx p hp hpx
        exact ⟨p, mem_peelReady_of_not_ready hnd hp hnr, hpx, y, hy, hyS⟩
      have hndpeel : (akeys (peelReady R)).Nodup := by
        refine hnd.sublist ?_
        unfold akeys
        exact (peelReady_sublist R).map Prod.fst
      have hrec := ih (peelReady R) S hndpeel hSne hinv2
      rw [hrec]
      rfl

/-- A graph built by `build_dependency_graph` has duplicate-free keys (it is
a Python dict built from the empty dict). -/
theorem build_dependency_graph_nodup (workflows : List JObj) (g : DepGraph)
    (h : build_dependency_graph workflows = some g) : (akeys g).Nodup := by
  unfold build_dependency_graph at h
  suffices hgen : ∀ (ws : List JObj) (acc g2 : DepGraph), (akeys acc).Nodup →
      (ws.foldlM (fun g w =>
        match jget w "id" with
        | some (JVal.str wid) =>
          (analyze_workflow_dependencies w).map (fun deps => aset g wid deps)
        | _ => none) acc) = some g2 → (akeys g2).Nodup by
    exact hgen workflows [] g List.nodup_nil h
  intro ws
  induction ws with
  | nil =>
    intro acc g2 hacc hfold
    simp only [List.foldlM_nil] at hfold
    injection hfold with hfold
    rw [← hfold]
    exact hacc
  | cons w ws2 ih =>
    intro acc g2 hacc hfold
    rw [List.foldlM_cons] at hfold
    cases hid : jget w "id" with
    | none =>
      rw [hid] at hfold
      exact absurd hfold (by simp)
    | some v =>
      cases v with
      | str wid =>
        rw [hid] at hfold
        cases hdeps : analyze_workflow_dependencies w with
        | none =>
          rw [hdeps] at hfold
          exact absurd hfold (by simp)
        | some deps =>
          rw [hdeps] at hfold
          simp only [Option.map_some, Option.some_bind] at hfold
          exact ih (aset acc wid deps) g2 (nodup_akeys_aset acc wid deps hacc) hfold
      | null =>
        rw [hid] at hfold
        exact absurd hfold (by simp)
      | bool b =>
        rw [hid] at hfold
        exact absurd hfold (by simp)
      | num n =>
        rw [hid] at hfold
        exact absurd hfold (by simp)
      | arr xs =>
        rw [hid] at hfold
        exact absurd hfold (by simp)
      | obj fs =>
        rw [hid] at hfold
        exact absurd hfold (by simp)

/-- C2: for every backup whose dependency graph contains a cycle among its
keys (witnessed by a cycle set `S`), `get_workflow_order` raises the cycle
`ValueError` — there is no partial order in an `Except.error` — and the
restore's workflow phase aborts before any workflow is submitted: its trace
is empty, with zero ledger writes for workflows and zero counters (the
credential phase has already run by this point and is not rolled back). -/
theorem restore_aborts_on_cycle (workflows : List JObj) (g : DepGraph) (S : List String)
    (supports : Bool) (projectId : String) (createRes : String → Option String)
    (transferOk : String → Bool)
    (hg : build_dependency_graph workflows = some g)
    (hcyc : CycleSetB g S = true) :
    get_workflow_order g = Except.error cycleErrorMsg ∧
    restoreWorkflowsPhase workflows supports projectId createRes transferOk =
      some ([], 0, 0) := by
  have hnd := build_dependency_graph_nodup workflows g hg
  obtain ⟨hSne, hS⟩ := cycleSetB_spec hcyc
  have herr := kahnRoundsF_error_of_cycleSet (g.length + 1) g S hnd hSne hS
  have horder : get_workflow_order g = Except.error cycleErrorMsg := by
    unfold get_workflow_order
    rw [herr]
    rfl
  refine ⟨horder, ?_⟩
  unfold restoreWorkflowsPhase
  rw [hg]
  simp [horder]

/-- C2 witness: the three-node cycle `A→B→C→A` — the resolver raises the
cycle error and the restore submits nothing. -/
theorem restore_aborts_on_cycle_witness :
    get_workflow_order [("A", ["B"]), ("B", ["C"]), ("C", ["A"])] =
      Except.error cycleErrorMsg ∧
    restoreWorkflowsPhase [cycleWf "A" "B", cycleWf "B" "C", cycleWf "C" "A"] true "p1"
        (fun _ => none) (fun _ => true) = some ([], 0, 0) :=
  restore_aborts_on_cycle [cycleWf "A" "B", cycleWf "B" "C", cycleWf "C" "A"]
    [("A", ["B"]), ("B", ["C"]), ("C", ["A"])] ["A", "B", "C"] true "p1"
    (fun _ => none) (fun _ => true) rfl rfl

/-- C6, counterexample: with one tracked workflow and one tracked
credential and every remote deletion succeeding, the confirmed cleanup's
trace deletes the CREDENTIAL first and the workflow after it — not
"workflows first, then credentials" as the claim says. -/
theorem perform_cleanup_order_counterexample :
    perform_cleanup_trace "yes" ⟨[("w1", "Wf")], [("c1", "Cred")], []⟩ none
        (fun _ => true) (fun _ => true) (fun _ => true) =
      [RemoteEvent.credDelete "c1", RemoteEvent.ledgerRemove RType.credentials "c1",
       RemoteEvent.wfDelete "w1", RemoteEvent.ledgerRemove RType.workflows "w1"] ∧
    ¬ wfDeletesPrecedeCredDeletes
      [RemoteEvent.credDelete "c1", RemoteEvent.ledgerRemove RType.credentials "c1",
       RemoteEvent.wfDelete "w1", RemoteEvent.ledgerRemove RType.workflows "w1"] := by
  refine ⟨rfl, ?_⟩
  intro h
  have := h ⟨2, by decide⟩ ⟨0, by decide⟩ (by decide) (by decide)
  exact absurd this (by decide)

/-- Any split of a block phase at a ledger-removal event shows the
corresponding remote deletion earlier in the same phase, and that deletion
succeeded — the shape of each per-item block `delete :: (removal when
successful)`. -/
theorem blocks_split_rem (del rem : String → RemoteEvent) (ok : String → Bool)
    (hinj : ∀ a b, del a ≠ rem b) (hreminj : ∀ a b, rem a = rem b → a = b) :
    ∀ (items : List (String × String)) (l₁ l₂ : List RemoteEvent) (id : String),
      (items.map (fun p => del p.1 :: (if ok p.1 then [rem p.1] else []))).flatten =
        l₁ ++ rem id :: l₂ →
      ok id = true ∧ del id ∈ l₁ := by
  intro items
  induction items with
  | nil =>
    intro l₁ l₂ id h
    simp only [List.map_nil, List.flatten_nil] at h
    exact absurd h.symm (List.append_ne_nil_of_right_ne_nil l₁ (by simp))
  | cons p rest ih =>
    intro l₁ l₂ id h
    simp only [List.map_cons, List.flatten_cons, List.cons_append, List.append_assoc] at h
    cases l₁ with
    | nil =>
      simp only [List.nil_append] at h
      have := (List.cons.injEq _ _ _ _).mp h
      exact absurd this.1 (hinj p.1 id)
    | cons e l₁t =>
      simp only [List.cons_append] at h
      have hpair := (List.cons.injEq _ _ _ _).mp h
      have htail := hpair.2
      cases hok : ok p.1 with
      | true =>
        rw [hok] at htail
        simp only [if_true, List.cons_append, List.singleton_append] at htail
        cases l₁t with
        | nil =>
          simp only [List.nil_append] at htail
          have := (List.cons.injEq _ _ _ _).mp htail
          have hid := hreminj p.1 id this.1
          refine ⟨by rw [← hid]; exact hok, ?_⟩
          rw [← hid, hpair.1]
          exact List.mem_cons_self _ _
        | cons e2 l₁t2 =>
          simp only [List.cons_append] at htail
          have hpair2 := (List.cons.injEq _ _ _ _).mp htail
          obtain ⟨hokid, hmem⟩ := ih l₁t2 l₂ id hpair2.2
          exact ⟨hokid, List.mem_cons_of_mem _ (List.mem_cons_of_mem _ hmem)⟩
      | false =>
        rw [hok] at htail
        rw [show (if false = true then [rem p.1] else ([] : List RemoteEvent)) = [] from rfl,
          List.nil_append] at htail
        obtain ⟨hokid, hmem⟩ := ih l₁t l₂ id htail
        exact ⟨hokid, List.mem_cons_of_mem _ hmem⟩

/-- A split point that cannot lie in the second part lies in the first,
with the same prefix. -/
theorem split_in_first {x : RemoteEvent} :
    ∀ (C rest l₁ l₂ : List RemoteEvent), C ++ rest = l₁ ++ x :: l₂ → x ∉ rest →
      ∃ l₃, C = l₁ ++ x :: l₃ := by
  intro C
  induction C with
  | nil =>
    intro rest l₁ l₂ h hx
    exfalso
    apply hx
    rw [List.nil_append] at h
    rw [h]
    simp
  | cons c Ct ih =>
    intro rest l₁ l₂ h hx
    cases l₁ with
    | nil =>
      simp only [List.cons_append, List.nil_append] at h
      have := (List.cons.injEq _ _ _ _).mp h
      exact ⟨Ct, by rw [this.1]; rfl⟩
    | cons e l₁t =>
      simp only [List.cons_append] at h
      have hpair := (List.cons.injEq _ _ _ _).mp h
      obtain ⟨l₃, hl₃⟩ := ih rest l₁t l₂ hpair.2 hx
      exact ⟨l₃, by rw [hpair.1, hl₃]; rfl⟩

/-- A split point that cannot lie in the first part lies in the second,
and the first part is a prefix of the split's prefix. -/
theorem split_in_second {x : RemoteEvent} :
    ∀ (C rest l₁ l₂ : List RemoteEvent), C ++ rest = l₁ ++ x :: l₂ → x ∉ C →
      ∃ l₃, rest = l₃ ++ x :: l₂ ∧ l₁ = C ++ l₃ := by
  intro C
  induction C with
  | nil =>
    intro rest l₁ l₂ h _
    exact ⟨l₁, by rw [← h]; rfl, rfl⟩
  | cons c Ct ih =>
    intro rest l₁ l₂ h hx
    cases l₁ with
    | nil =>
      simp only [List.cons_append, List.nil_append] at h
      have := (List.cons.injEq _ _ _ _).mp h
      exfalso
      apply hx
      rw [this.1]
      simp
    | cons e l₁t =>
      simp only [List.cons_append] at h
      have hpair := (List.cons.injEq _ _ _ _).mp h
      obtain ⟨l₃, hrest, hl₁⟩ := ih rest l₁t l₂ hpair.2 (fun hm => hx (List.mem_cons_of_mem c hm))
      exact ⟨l₃, hrest, by rw [hpair.1, hl₁]; rfl⟩

/-- Every event of a credential phase is a credential event. -/
theorem mem_credPhase_kind (ok : String → Bool) (items : List (String × String))
    {e : RemoteEvent} (h : e ∈ (items.map (fun p => credBlock ok p.1)).flatten) :
    isCredEvent e = true := by
  obtain ⟨l, hl, hel⟩ := List.mem_flatten.mp h
  obtain ⟨p, _, hpl⟩ := List.mem_map.mp hl
  rw [← hpl] at hel
  unfold credBlock at hel
  rcases List.mem_cons.mp hel with rfl | hel2
  · rfl
  · cases hok : ok p.1 with
    | true =>
      rw [hok] at hel2
      simp only [if_true, List.mem_singleton] at hel2
      rw [hel2]
      rfl
    | false =>
      rw [hok] at hel2
      simp at hel2

/-- Every event of a workflow phase is a workflow event. -/
theorem mem_wfPhase_kind (ok : String → Bool) (items : List (String × String))
    {e : RemoteEvent} (h : e ∈ (items.map (fun p => wfBlock ok p.1)).flatten) :
    isWfEvent e = true := by
  obtain ⟨l, hl, hel⟩ := List.mem_flatten.mp h
  obtain ⟨p, _, hpl⟩ := List.mem_map.mp hl
  rw [← hpl] at hel
  unfold wfBlock at hel
  rcases List.mem_cons.mp hel with rfl | hel2
  · rfl
  · cases hok : ok p.1 with
    | true =>
      rw [hok] at hel2
      simp only [if_true, List.mem_singleton] at hel2
      rw [hel2]
      rfl
    | false =>
      rw [hok] at hel2
      simp at hel2

/-- Every event of the project phase is a project event. -/
theorem mem_projPhase_kind (ok : String → Bool) (pid : String)
    {e : RemoteEvent} (h : e ∈ projBlock ok pid) : isProjEvent e = true := by
  unfold projBlock at h
  rcases List.mem_cons.mp h with rfl | hel2
  · rfl
  · cases hok : ok pid with
    | true =>
      rw [hok] at hel2
      simp only [if_true, List.mem_singleton] at hel2
      rw [hel2]
      rfl
    | false =>
      rw [hok] at hel2
      simp at hel2

theorem isCredDeleteEvent_eq_false_of_wf {e : RemoteEvent} (h : isWfEvent e = true) :
    isCredDeleteEvent e = false := by
  cases e with
  | credDelete id => simp [isWfEvent] at h
  | wfCreate n => rfl
  | wfTransfer a b => rfl
  | wfDelete a => rfl
  | projDelete a => rfl
  | ledgerAdd ty a b => rfl
  | ledgerRemove ty a => rfl

theorem isCredDeleteEvent_eq_false_of_proj {e : RemoteEvent} (h : isProjEvent e = true) :
    isCredDeleteEvent e = false := by
  cases e with
  | credDelete id => simp [isProjEvent] at h
  | wfCreate n => rfl
  | wfTransfer a b => rfl
  | wfDelete a => rfl
  | projDelete a => rfl
  | ledgerAdd ty a b => rfl
  | ledgerRemove ty a => rfl

theorem isWfDeleteEvent_eq_false_of_cred {e : RemoteEvent} (h : isCredEvent e = true) :
    isWfDeleteEvent e = false := by
  cases e with
  | wfDelete id => simp [isCredEvent] at h
  | wfCreate n => rfl
  | wfTransfer a b => rfl
  | credDelete a => rfl
  | projDelete a => rfl
  | ledgerAdd ty a b => rfl
  | ledgerRemove ty a => rfl

theorem isWfDeleteEvent_eq_false_of_proj {e : RemoteEvent} (h : isProjEvent e = true) :
    isWfDeleteEvent e = false := by
  cases e with
  | wfDelete id => simp [isProjEvent] at h
  | wfCreate n => rfl
  | wfTransfer a b => rfl
  | credDelete a => rfl
  | projDelete a => rfl
  | ledgerAdd ty a b => rfl
  | ledgerRemove ty a => rfl

theorem isProjDeleteEvent_eq_false_of_cred {e : RemoteEvent} (h : isCredEvent e = true) :
    isProjDeleteEvent e = false := by
  cases e with
  | projDelete id => simp [isCredEvent] at h
  | wfCreate n => rfl
  | wfTransfer a b => rfl
  | credDelete a => rfl
  | wfDelete a => rfl
  | ledgerAdd ty a b => rfl
  | ledgerRemove ty a => rfl

theorem isProjDeleteEvent_eq_false_of_wf {e : RemoteEvent} (h : isWfEvent e = true) :
    isProjDeleteEvent e = false := by
  cases e with
  | projDelete id => simp [isWfEvent] at h
  | wfCreate n => rfl
  | wfTransfer a b => rfl
  | credDelete a => rfl
  | wfDelete a => rfl
  | ledgerAdd ty a b => rfl
  | ledgerRemove ty a => rfl

/-- A credential DELETE in the credential phase names a tracked id. -/
theorem credDelete_mem_credPhase (ok : String → Bool) (items : List (String × String))
    {id : String}
    (h : RemoteEvent.credDelete id ∈ (items.map (fun p => credBlock ok p.1)).flatten) :
    id ∈ akeys items := by
  obtain ⟨l, hl, hel⟩ := List.mem_flatten.mp h
  obtain ⟨p, hp, hpl⟩ := List.mem_map.mp hl
  rw [← hpl] at hel
  unfold credBlock at hel
  rcases List.mem_cons.mp hel with heq | hel2
  · injection heq with h1
    exact mem_akeys_iff.mpr ⟨p, hp, h1.symm⟩
  · cases hok : ok p.1 with
    | true =>
      rw [hok] at hel2
      simp at hel2
    | false =>
      rw [hok] at hel2
      simp at hel2

/-- A workflow DELETE in the workflow phase names a tracked id. -/
theorem wfDelete_mem_wfPhase (ok : String → Bool) (items : List (String × String))
    {id : String}
    (h : RemoteEvent.wfDelete id ∈ (items.map (fun p => wfBlock ok p.1)).flatten) :
    id ∈ akeys items := by
  obtain ⟨l, hl, hel⟩ := List.mem_flatten.mp h
  obtain ⟨p, hp, hpl⟩ := List.mem_map.mp hl
  rw [← hpl] at hel
  unfold wfBlock at hel
  rcases List.mem_cons.mp hel with heq | hel2
  · injection heq with h1
    exact mem_akeys_iff.mpr ⟨p, hp, h1.symm⟩
  · cases hok : ok p.1 with
    | true =>
      rw [hok] at hel2
      simp at hel2
    | false =>
      rw [hok] at hel2
      simp at hel2

/-- Any split of the project block at its ledger removal shows the project
DELETE before it and that it succeeded. -/
theorem projBlock_split (ok : String → Bool) (pid : String) :
    ∀ (l₁ l₂ : List RemoteEvent) (id : String),
      projBlock ok pid = l₁ ++ RemoteEvent.ledgerRemove RType.projects id :: l₂ →
      ok id = true ∧ RemoteEvent.projDelete id ∈ l₁ := by
  intro l₁ l₂ id h
  unfold projBlock at h
  cases l₁ with
  | nil =>
    simp only [List.nil_append] at h
    have := (List.cons.injEq _ _ _ _).mp h
    exact absurd this.1 (by simp)
  | cons e l₁t =>
    simp only [List.cons_append] at h
    have hpair := (List.cons.injEq _ _ _ _).mp h
    cases hok : ok pid with
    | true =>
      rw [hok] at hpair
      simp only [if_true] at hpair
      cases l₁t with
      | nil =>
        simp only [List.nil_append] at hpair
        have h2 := (List.cons.injEq _ _ _ _).mp hpair.2
        have hid : pid = id := by
          have := h2.1
          injection this with hty hid
        refine ⟨by rw [← hid]; exact hok, ?_⟩
        rw [← hid, hpair.1]
        exact List.mem_cons_self _ _
      | cons e2 l₁t2 =>
        simp only [List.cons_append] at hpair
        have h2 := (List.cons.injEq _ _ _ _).mp hpair.2
        exact absurd h2.2.symm (List.append_ne_nil_of_right_ne_nil l₁t2 (by simp))
    | false =>
      rw [hok] at hpair
      have h2 := hpair.2
      rw [show (if false = true then [RemoteEvent.ledgerRemove RType.projects pid]
        else ([] : List RemoteEvent)) = [] from rfl] at h2
      exact absurd h2.symm (List.append_ne_nil_of_right_ne_nil l₁t (by simp))

theorem mem_of_getElem_eq_some {l : List RemoteEvent} {n : Nat} {a : RemoteEvent}
    (h : l[n]? = some a) : a ∈ l := by
  obtain ⟨hlt, heq⟩ := List.getElem?_eq_some_iff.mp h
  rw [← heq]
  exact List.getElem_mem hlt

/-- Every event of the project phase is a project event (phase form). -/
theorem mem_projPhase_kind2 {resources : LedgerEntry} {projectId : Option String}
    {ok : String → Bool} {e : RemoteEvent} (h : e ∈ projPhase resources projectId ok) :
    isProjEvent e = true := by
  cases projectId with
  | none => simp [projPhase] at h
  | some pid =>
    simp only [projPhase] at h
    by_cases hg : pid ≠ "" ∧ pid ∈ akeys resources.projects
    · rw [if_pos hg] at h
      exact mem_projPhase_kind ok pid h
    · rw [if_neg hg] at h
      simp at h

/-- A project DELETE in the project phase names the current, tracked
project. -/
theorem projDelete_mem_projPhase {resources : LedgerEntry} {projectId : Option String}
    {ok : String → Bool} {id : String}
    (h : RemoteEvent.projDelete id ∈ projPhase resources projectId ok) :
    projectId = some id ∧ id ∈ akeys resources.projects := by
  cases projectId with
  | none => simp [projPhase] at h
  | some pid =>
    simp only [projPhase] at h
    by_cases hg : pid ≠ "" ∧ pid ∈ akeys resources.projects
    · rw [if_pos hg] at h
      unfold projBlock at h
      rcases List.mem_cons.mp h with heq | hel2
      · injection heq with h1
        rw [h1]
        exact ⟨rfl, hg.2⟩
      · cases hok : ok pid with
        | true =>
          rw [hok] at hel2
          simp at hel2
        | false =>
          rw [hok] at hel2
          simp at hel2
    · rw [if_neg hg] at h
      simp at h

/-- Any split of the project phase at its ledger removal. -/
theorem projPhase_split {resources : LedgerEntry} {projectId : Option String}
    {ok : String → Bool} :
    ∀ (l₁ l₂ : List RemoteEvent) (id : String),
      projPhase resources projectId ok =
        l₁ ++ RemoteEvent.ledgerRemove RType.projects id :: l₂ →
      ok id = true ∧ RemoteEvent.projDelete id ∈ l₁ := by
  intro l₁ l₂ id h
  cases projectId with
  | none =>
    simp only [projPhase] at h
    exact absurd h.symm (List.append_ne_nil_of_right_ne_nil l₁ (by simp))
  | some pid =>
    simp only [projPhase] at h
    by_cases hg : pid ≠ "" ∧ pid ∈ akeys resources.projects
    · rw [if_pos hg] at h
      exact projBlock_split ok pid l₁ l₂ id h
    · rw [if_neg hg] at h
      exact absurd h.symm (List.append_ne_nil_of_right_ne_nil l₁ (by simp))

/-- C6, amended: cleanup runs only after explicit "yes" confirmation, and
then deletes only ledger-tracked resources — in the order CREDENTIALS
first, then workflows, then (if applicable) the tracked project of the
current instance and project (the claim's "workflows first, then
credentials" is reversed in the code); and for every deletion, the ledger
entry is removed only after (and immediately after) the remote deletion
has succeeded.  Stated over the cleanup's event trace `t`: unconfirmed
cleanup does nothing; the trace splits into a credential phase, a workflow
phase and a project phase; every remote deletion names a ledger-tracked id
(and the project deletion the current project); every ledger removal is
preceded in the trace by its own successful remote deletion; and every
credential deletion precedes every workflow deletion, which precedes every
project deletion. -/
theorem perform_cleanup_trace_spec (confirm : String) (resources : LedgerEntry)
    (projectId : Option String) (delCredOk delWfOk delProjOk : String → Bool)
    (t : List RemoteEvent)
    (ht : perform_cleanup_trace confirm resources projectId delCredOk delWfOk delProjOk = t) :
    (lowerStr confirm ≠ "yes" → t = []) ∧
    (∃ C W P, t = C ++ W ++ P ∧
      (∀ e ∈ C, isCredEvent e = true) ∧ (∀ e ∈ W, isWfEvent e = true) ∧
      (∀ e ∈ P, isProjEvent e = true)) ∧
    (∀ id, RemoteEvent.credDelete id ∈ t → id ∈ akeys resources.credentials) ∧
    (∀ id, RemoteEvent.wfDelete id ∈ t → id ∈ akeys resources.workflows) ∧
    (∀ id, RemoteEvent.projDelete id ∈ t →
      projectId = some id ∧ id ∈ akeys resources.projects) ∧
    (∀ l₁ l₂ id, t = l₁ ++ RemoteEvent.ledgerRemove RType.credentials id :: l₂ →
      delCredOk id = true ∧ RemoteEvent.credDelete id ∈ l₁) ∧
    (∀ l₁ l₂ id, t = l₁ ++ RemoteEvent.ledgerRemove RType.workflows id :: l₂ →
      delWfOk id = true ∧ RemoteEvent.wfDelete id ∈ l₁) ∧
    (∀ l₁ l₂ id, t = l₁ ++ RemoteEvent.ledgerRemove RType.projects id :: l₂ →
      delProjOk id = true ∧ RemoteEvent.projDelete id ∈ l₁) ∧
    credDeletesPrecedeWfDeletes t ∧
    wfDeletesPrecedeProjDeletes t := by
  have hempty_case : t = [] →
      (lowerStr confirm ≠ "yes" → t = []) ∧
      (∃ C W P, t = C ++ W ++ P ∧
        (∀ e ∈ C, isCredEvent e = true) ∧ (∀ e ∈ W, isWfEvent e = true) ∧
        (∀ e ∈ P, isProjEvent e = true)) ∧
      (∀ id, RemoteEvent.credDelete id ∈ t → id ∈ akeys resources.credentials) ∧
      (∀ id, RemoteEvent.wfDelete id ∈ t → id ∈ akeys resources.workflows) ∧
      (∀ id, RemoteEvent.projDelete id ∈ t →
        projectId = some id ∧ id ∈ akeys resources.projects) ∧
      (∀ l₁ l₂ id, t = l₁ ++ RemoteEvent.ledgerRemove RType.credentials id :: l₂ →
        delCredOk id = true ∧ RemoteEvent.credDelete id ∈ l₁) ∧
      (∀ l₁ l₂ id, t = l₁ ++ RemoteEvent.ledgerRemove RType.workflows id :: l₂ →
        delWfOk id = true ∧ RemoteEvent.wfDelete id ∈ l₁) ∧
      (∀ l₁ l₂ id, t = l₁ ++ RemoteEvent.ledgerRemove RType.projects id :: l₂ →
        delProjOk id = true ∧ RemoteEvent.projDelete id ∈ l₁) ∧
      credDeletesPrecedeWfDeletes t ∧
      wfDeletesPrecedeProjDeletes t := by
    intro hnil
    subst hnil
    refine ⟨fun _ => rfl, ⟨[], [], [], rfl, by simp, by simp, by simp⟩, ?_, ?_, ?_, ?_, ?_, ?_,
      ?_, ?_⟩
    · intro id hmem; simp at hmem
    · intro id hmem; simp at hmem
    · intro id hmem; simp at hmem
    · intro l₁ l₂ id hsplit
      exact absurd hsplit.symm (List.append_ne_nil_of_right_ne_nil l₁ (by simp))
    · intro l₁ l₂ id hsplit
      exact absurd hsplit.symm (List.append_ne_nil_of_right_ne_nil l₁ (by simp))
    · intro l₁ l₂ id hsplit
      exact absurd hsplit.symm (List.append_ne_nil_of_right_ne_nil l₁ (by simp))
    · intro i j _ _; exact i.elim0
    · intro i j _ _; exact i.elim0
  by_cases hconf : lowerStr confirm ≠ "yes"
  · apply hempty_case
    rw [← ht]
    unfold perform_cleanup_trace
    rw [if_pos hconf]
  · cases hguard : (resources.workflows.isEmpty && resources.credentials.isEmpty) with
    | true =>
      apply hempty_case
      rw [← ht]
      unfold perform_cleanup_trace
      rw [if_neg hconf, if_pos hguard]
    | false =>
      have htr : t = credPhase resources delCredOk ++ wfPhase resources delWfOk ++
          projPhase resources projectId delProjOk := by
        rw [← ht]
        unfold perform_cleanup_trace
        rw [if_neg hconf, if_neg (by rw [hguard]; simp)]
      have hCkind : ∀ e ∈ credPhase resources delCredOk, isCredEvent e = true :=
        fun e he => mem_credPhase_kind delCredOk resources.credentials he
      have hWkind : ∀ e ∈ wfPhase resources delWfOk, isWfEvent e = true :=
        fun e he => mem_wfPhase_kind delWfOk resources.workflows he
      have hPkind : ∀ e ∈ projPhase resources projectId delProjOk, isProjEvent e = true :=
        fun e he => mem_projPhase_kind2 he
      refine ⟨fun hc => absurd hc hconf,
        ⟨credPhase resources delCredOk, wfPhase resources delWfOk,
          projPhase resources projectId delProjOk, htr, hCkind, hWkind, hPkind⟩,
        ?_, ?_, ?_, ?_, ?_, ?_, ?_, ?_⟩
      · intro id hmem
        rw [htr] at hmem
        rcases List.mem_append.mp hmem with hmem2 | hp
        · rcases List.mem_append.mp hmem2 with hc | hw
          · exact credDelete_mem_credPhase delCredOk resources.credentials hc
          · exact absurd (hWkind _ hw) (by simp [isWfEvent])
        · exact absurd (hPkind _ hp) (by simp [isProjEvent])
      · intro id hmem
        rw [htr] at hmem
        rcases List.mem_append.mp hmem with hmem2 | hp
        · rcases List.mem_append.mp hmem2 with hc | hw
          · exact absurd (hCkind _ hc) (by simp [isCredEvent])
          · exact wfDelete_mem_wfPhase delWfOk resources.workflows hw
        · exact absurd (hPkind _ hp) (by simp [isProjEvent])
      · intro id hmem
        rw [htr] at hmem
        rcases List.mem_append.mp hmem with hmem2 | hp
        · rcases List.mem_append.mp hmem2 with hc | hw
          · exact absurd (hCkind _ hc) (by simp [isCredEvent])
          · exact absurd (hWkind _ hw) (by simp [isWfEvent])
        · exact projDelete_mem_projPhase hp
      · intro l₁ l₂ id hsplit
        rw [htr, List.append_assoc] at hsplit
        have hxnot : RemoteEvent.ledgerRemove RType.credentials id ∉
            wfPhase resources delWfOk ++ projPhase resources projectId delProjOk := by
          intro hx
          rcases List.mem_append.mp hx with hw | hp
          · exact absurd (hWkind _ hw) (by simp [isWfEvent])
          · exact absurd (hPkind _ hp) (by simp [isProjEvent])
        obtain ⟨l₃, hC⟩ := split_in_first _ _ _ _ hsplit hxnot
        exact blocks_split_rem RemoteEvent.credDelete
          (fun i => RemoteEvent.ledgerRemove RType.credentials i) delCredOk
          (fun a b h => RemoteEvent.noConfusion h)
          (fun a b h => by cases h; rfl)
          resources.credentials l₁ l₃ id hC
      · intro l₁ l₂ id hsplit
        rw [htr, List.append_assoc] at hsplit
        have hxC : RemoteEvent.ledgerRemove RType.workflows id ∉
            credPhase resources delCredOk := by
          intro hx
          exact absurd (hCkind _ hx) (by simp [isCredEvent])
        obtain ⟨l₃, hrest, hl₁⟩ := split_in_second _ _ _ _ hsplit hxC
        have hxP : RemoteEvent.ledgerRemove RType.workflows id ∉
            projPhase resources projectId delProjOk := by
          intro hx
          exact absurd (hPkind _ hx) (by simp [isProjEvent])
        obtain ⟨l₄, hW⟩ := split_in_first _ _ _ _ hrest hxP
        obtain ⟨hok, hmem⟩ := blocks_split_rem RemoteEvent.wfDelete
          (fun i => RemoteEvent.ledgerRemove RType.workflows i) delWfOk
          (fun a b h => RemoteEvent.noConfusion h)
          (fun a b h => by cases h; rfl)
          resources.workflows l₃ l₄ id hW
        refine ⟨hok, ?_⟩
        rw [hl₁]
        exact List.mem_append_right _ hmem
      · intro l₁ l₂ id hsplit
        rw [htr, List.append_assoc] at hsplit
        have hxC : RemoteEvent.ledgerRemove RType.projects id ∉
            credPhase resources delCredOk := by
          intro hx
          exact absurd (hCkind _ hx) (by simp [isCredEvent])
        obtain ⟨l₃, hrest, hl₁⟩ := split_in_second _ _ _ _ hsplit hxC
        have hxW : RemoteEvent.ledgerRemove RType.projects id ∉
            wfPhase resources delWfOk := by
          intro hx
          exact absurd (hWkind _ hx) (by simp [isWfEvent])
        obtain ⟨l₄, hP, hl₃⟩ := split_in_second _ _ _ _ hrest hxW
        obtain ⟨hok, hmem⟩ := projPhase_split l₄ l₂ id hP
        refine ⟨hok, ?_⟩
        rw [hl₁, hl₃]
        exact List.mem_append_right _ (List.mem_append_right _ hmem)
      · rw [htr, List.append_assoc]
        intro i j hci hwj
        have hmemleft : ∀ (k : Fin (credPhase resources delCredOk ++
            (wfPhase resources delWfOk ++ projPhase resources projectId delProjOk)).length),
            (k : Nat) < (credPhase resources delCredOk).length →
            (credPhase resources delCredOk ++
              (wfPhase resources delWfOk ++
                projPhase resources projectId delProjOk)).get k ∈
              credPhase resources delCredOk := by
          intro k hk
          have hget : (credPhase resources delCredOk ++
              (wfPhase resources delWfOk ++ projPhase resources projectId delProjOk))[(k : Nat)]?
              = some ((credPhase resources delCredOk ++
                (wfPhase resources delWfOk ++ projPhase resources projectId delProjOk)).get k) :=
            List.getElem?_eq_getElem k.isLt
          rw [List.getElem?_append_left hk] at hget
          exact mem_of_getElem_eq_some hget
        have hmemright : ∀ (k : Fin (credPhase resources delCredOk ++
            (wfPhase resources delWfOk ++ projPhase resources projectId delProjOk)).length),
            (credPhase resources delCredOk).length ≤ (k : Nat) →
            (credPhase resources delCredOk ++
              (wfPhase resources delWfOk ++
                projPhase resources projectId delProjOk)).get k ∈
              wfPhase resources delWfOk ++ projPhase resources projectId delProjOk := by
          intro k hk
          have hget : (credPhase resources delCredOk ++
              (wfPhase resources delWfOk ++ projPhase resources projectId delProjOk))[(k : Nat)]?
              = some ((credPhase resources delCredOk ++
                (wfPhase resources delWfOk ++ projPhase resources projectId delProjOk)).get k) :=
            List.getElem?_eq_getElem k.isLt
          rw [List.getElem?_append_right hk] at hget
          exact mem_of_getElem_eq_some hget
        have hi : (i : Nat) < (credPhase resources delCredOk).length := by
          by_contra hge
          have hge2 := Nat.le_of_not_lt hge
          have hmem := hmemright i hge2
          rcases List.mem_append.mp hmem with hw | hp
          · rw [isCredDeleteEvent_eq_false_of_wf (hWkind _ hw)] at hci
            exact Bool.false_ne_true hci
          · rw [isCredDeleteEvent_eq_false_of_proj (hPkind _ hp)] at hci
            exact Bool.false_ne_true hci
        have hj : (credPhase resources delCredOk).length ≤ (j : Nat) := by
          by_contra hlt
          have hlt2 := Nat.lt_of_not_le hlt
          have hmem := hmemleft j hlt2
          rw [isWfDeleteEvent_eq_false_of_cred (hCkind _ hmem)] at hwj
          exact Bool.false_ne_true hwj
        omega
      · rw [htr]
        intro i j hwi hpj
        have hmemleft : ∀ (k : Fin ((credPhase resources delCredOk ++
            wfPhase resources delWfOk) ++ projPhase resources projectId delProjOk).length),
            (k : Nat) < (credPhase resources delCredOk ++ wfPhase resources delWfOk).length →
            ((credPhase resources delCredOk ++ wfPhase resources delWfOk) ++
              projPhase resources projectId delProjOk).get k ∈
              credPhase resources delCredOk ++ wfPhase resources delWfOk := by
          intro k hk
          have hget : ((credPhase resources delCredOk ++ wfPhase resources delWfOk) ++
              projPhase resources projectId delProjOk)[(k : Nat)]?
              = some (((credPhase resources delCredOk ++ wfPhase resources delWfOk) ++
                projPhase resources projectId delProjOk).get k) :=
            List.getElem?_eq_getElem k.isLt
          rw [List.getElem?_append_left hk] at hget
          exact mem_of_getElem_eq_some hget
        have hmemright : ∀ (k : Fin ((credPhase resources delCredOk ++
            wfPhase resources delWfOk) ++ projPhase resources projectId delProjOk).length),
            (credPhase resources delCredOk ++ wfPhase resources delWfOk).length ≤ (k : Nat) →
            ((credPhase resources delCredOk ++ wfPhase resources delWfOk) ++
              projPhase resources projectId delProjOk).get k ∈
              projPhase resources projectId delProjOk := by
          intro k hk
          have hget : ((credPhase resources delCredOk ++ wfPhase resources delWfOk) ++
              projPhase resources projectId delProjOk)[(k : Nat)]?
              = some (((credPhase resources delCredOk ++ wfPhase resources delWfOk) ++
                projPhase resources projectId delProjOk).get k) :=
            List.getElem?_eq_getElem k.isLt
          rw [List.getElem?_append_right hk] at hget
          exact mem_of_getElem_eq_some hget
        have hi : (i : Nat) < (credPhase resources delCredOk ++ wfPhase resources delWfOk).length := by
          by_contra hge
          have hge2 := Nat.le_of_not_lt hge
          have hmem := hmemright i hge2
          rw [isWfDeleteEvent_eq_false_of_proj (hPkind _ hmem)] at hwi
          exact Bool.false_ne_true hwi
        have hj : (credPhase resources delCredOk ++ wfPhase resources delWfOk).length ≤ (j : Nat) := by
          by_contra hlt
          have hlt2 := Nat.lt_of_not_le hlt
          have hmem := hmemleft j hlt2
          rcases List.mem_append.mp hmem with hc | hw
          · rw [isProjDeleteEvent_eq_false_of_cred (hCkind _ hc)] at hpj
            exact Bool.false_ne_true hpj
          · rw [isProjDeleteEvent_eq_false_of_wf (hWkind _ hw)] at hpj
            exact Bool.false_ne_true hpj
        omega

/-- C6 witness: one tracked credential, one tracked workflow, a tracked
project matching the current one, all deletions succeeding — the trace is
credential phase, then workflow phase, then project phase, each ledger
removal right after its successful remote deletion. -/
theorem perform_cleanup_trace_spec_witness :
    (lowerStr "yes" ≠ "yes" →
      ([RemoteEvent.credDelete "c1", RemoteEvent.ledgerRemove RType.credentials "c1",
        RemoteEvent.wfDelete "w1", RemoteEvent.ledgerRemove RType.workflows "w1",
        RemoteEvent.projDelete "p1", RemoteEvent.ledgerRemove RType.projects "p1"]
        : List RemoteEvent) = []) ∧
    (∃ C W P, ([RemoteEvent.credDelete "c1", RemoteEvent.ledgerRemove RType.credentials "c1",
        RemoteEvent.wfDelete "w1", RemoteEvent.ledgerRemove RType.workflows "w1",
        RemoteEvent.projDelete "p1", RemoteEvent.ledgerRemove RType.projects "p1"]
        : List RemoteEvent) = C ++ W ++ P ∧
      (∀ e ∈ C, isCredEvent e = true) ∧ (∀ e ∈ W, isWfEvent e = true) ∧
      (∀ e ∈ P, isProjEvent e = true)) ∧
    (∀ id, RemoteEvent.credDelete id ∈
        ([RemoteEvent.credDelete "c1", RemoteEvent.ledgerRemove RType.credentials "c1",
          RemoteEvent.wfDelete "w1", RemoteEvent.ledgerRemove RType.workflows "w1",
          RemoteEvent.projDelete "p1", RemoteEvent.ledgerRemove RType.projects "p1"]
          : List RemoteEvent) →
      id ∈ akeys (⟨[("w1", "Wf")], [("c1", "Cred")], [("p1", "Proj")]⟩ :
        LedgerEntry).credentials) ∧
    (∀ id, RemoteEvent.wfDelete id ∈
        ([RemoteEvent.credDelete "c1", RemoteEvent.ledgerRemove RType.credentials "c1",
          RemoteEvent.wfDelete "w1", RemoteEvent.ledgerRemove RType.workflows "w1",
          RemoteEvent.projDelete "p1", RemoteEvent.ledgerRemove RType.projects "p1"]
          : List RemoteEvent) →
      id ∈ akeys (⟨[("w1", "Wf")], [("c1", "Cred")], [("p1", "Proj")]⟩ :
        LedgerEntry).workflows) ∧
    (∀ id, RemoteEvent.projDelete id ∈
        ([RemoteEvent.credDelete "c1", RemoteEvent.ledgerRemove RType.credentials "c1",
          RemoteEvent.wfDelete "w1", RemoteEvent.ledgerRemove RType.workflows "w1",
          RemoteEvent.projDelete "p1", RemoteEvent.ledgerRemove RType.projects "p1"]
          : List RemoteEvent) →
      some "p1" = some id ∧ id ∈ akeys (⟨[("w1", "Wf")], [("c1", "Cred")],
        [("p1", "Proj")]⟩ : LedgerEntry).projects) ∧
    (∀ l₁ l₂ id, ([RemoteEvent.credDelete "c1",
        RemoteEvent.ledgerRemove RType.credentials "c1",
        RemoteEvent.wfDelete "w1", RemoteEvent.ledgerRemove RType.workflows "w1",
        RemoteEvent.projDelete "p1", RemoteEvent.ledgerRemove RType.projects "p1"]
        : List RemoteEvent) = l₁ ++ RemoteEvent.ledgerRemove RType.credentials id :: l₂ →
      (fun _ : String => true) id = true ∧ RemoteEvent.credDelete id ∈ l₁) ∧
    (∀ l₁ l₂ id, ([RemoteEvent.credDelete "c1",
        RemoteEvent.ledgerRemove RType.credentials "c1",
        RemoteEvent.wfDelete "w1", RemoteEvent.ledgerRemove RType.workflows "w1",
        RemoteEvent.projDelete "p1", RemoteEvent.ledgerRemove RType.projects "p1"]
        : List RemoteEvent) = l₁ ++ RemoteEvent.ledgerRemove RType.workflows id :: l₂ →
      (fun _ : String => true) id = true ∧ RemoteEvent.wfDelete id ∈ l₁) ∧
    (∀ l₁ l₂ id, ([RemoteEvent.credDelete "c1",
        RemoteEvent.ledgerRemove RType.credentials "c1",
        RemoteEvent.wfDelete "w1", RemoteEvent.ledgerRemove RType.workflows "w1",
        RemoteEvent.projDelete "p1", RemoteEvent.ledgerRemove RType.projects "p1"]
        : List RemoteEvent) = l₁ ++ RemoteEvent.ledgerRemove RType.projects id :: l₂ →
      (fun _ : String => true) id = true ∧ RemoteEvent.projDelete id ∈ l₁) ∧
    credDeletesPrecedeWfDeletes
      [RemoteEvent.credDelete "c1", RemoteEvent.ledgerRemove RType.credentials "c1",
       RemoteEvent.wfDelete "w1", RemoteEvent.ledgerRemove RType.workflows "w1",
       RemoteEvent.projDelete "p1", RemoteEvent.ledgerRemove RType.projects "p1"] ∧
    wfDeletesPrecedeProjDeletes
      [RemoteEvent.credDelete "c1", RemoteEvent.ledgerRemove RType.credentials "c1",
       RemoteEvent.wfDelete "w1", RemoteEvent.ledgerRemove RType.workflows "w1",
       RemoteEvent.projDelete "p1", RemoteEvent.ledgerRemove RType.projects "p1"] :=
  perform_cleanup_trace_spec "yes" ⟨[("w1", "Wf")], [("c1", "Cred")], [("p1", "Proj")]⟩
    (some "p1") (fun _ => true) (fun _ => true) (fun _ => true)
    [RemoteEvent.credDelete "c1", RemoteEvent.ledgerRemove RType.credentials "c1",
     RemoteEvent.wfDelete "w1", RemoteEvent.ledgerRemove RType.workflows "w1",
     RemoteEvent.projDelete "p1", RemoteEvent.ledgerRemove RType.projects "p1"] rfl

/-! ## Properties of the Resource Mapping Store -/


theorem LedgerEntry.get_put_self (e : LedgerEntry) (ty : RType)
    (m : List (String × String)) : (e.put ty m).get ty = m := by
  cases ty <;> rfl

theorem LedgerEntry.get_put_ne (e : LedgerEntry) (ty ty' : RType)
    (m : List (String × String)) (h : ty ≠ ty') : (e.put ty m).get ty' = e.get ty' := by
  cases ty <;> cases ty' <;> first | rfl | exact absurd rfl h

/-- Reading an instance entry just written. -/
theorem gir_aset_self (doc : LedgerDoc) (url : String) (e : LedgerEntry) :
    get_instance_resources (aset doc url e) url = e := by
  unfold get_instance_resources
  rw [alookup_aset_self]
  rfl

/-- Writing one instance entry does not touch another instance. -/
theorem gir_aset_ne (doc : LedgerDoc) (url url' : String) (e : LedgerEntry) (h : url ≠ url') :
    get_instance_resources (aset doc url e) url' = get_instance_resources doc url' := by
  unfold get_instance_resources
  rw [alookup_aset_ne _ _ _ _ h]

/-- `remove_resource_mapping` on an unknown instance URL is the identity. -/
theorem remove_resource_none (doc : LedgerDoc) (url : String) (ty : RType) (id : String)
    (hlook : alookup doc url = none) :
    remove_resource_mapping doc url ty id = doc := by
  unfold remove_resource_mapping
  rw [hlook]

/-- `remove_resource_mapping` when the url, type and id are all present. -/
theorem remove_resource_hit (doc : LedgerDoc) (url : String) (ty : RType) (id : String)
    (e : LedgerEntry) (hlook : alookup doc url = some e) (hmem : id ∈ akeys (e.get ty)) :
    remove_resource_mapping doc url ty id =
      aset doc url (e.put ty ((e.get ty).eraseP (fun p => p.1 == id))) := by
  unfold remove_resource_mapping
  rw [hlook]
  show (if id ∈ akeys (e.get ty) then
      aset doc url (e.put ty ((e.get ty).eraseP (fun p => p.1 == id))) else doc) = _
  rw [if_pos hmem]

/-- `remove_resource_mapping` when the id is absent from the sub-map. -/
theorem remove_resource_miss (doc : LedgerDoc) (url : String) (ty : RType) (id : String)
    (e : LedgerEntry) (hlook : alookup doc url = some e) (hmem : id ∉ akeys (e.get ty)) :
    remove_resource_mapping doc url ty id = doc := by
  unfold remove_resource_mapping
  rw [hlook]
  show (if id ∈ akeys (e.get ty) then
      aset doc url (e.put ty ((e.get ty).eraseP (fun p => p.1 == id))) else doc) = _
  rw [if_neg hmem]

/-- Reading the instance just written by `save_resource_mapping`. -/
theorem gir_save_self (doc : LedgerDoc) (url : String) (ty : RType) (id name : String) :
    get_instance_resources (save_resource_mapping doc url ty id name) url =
      (get_instance_resources doc url).put ty
        (aset ((get_instance_resources doc url).get ty) id name) := by
  unfold save_resource_mapping
  exact gir_aset_self _ _ _

/-- `save_resource_mapping` does not touch other instances. -/
theorem gir_save_ne (doc : LedgerDoc) (url url' : String) (ty : RType) (id name : String)
    (h : url ≠ url') :
    get_instance_resources (save_resource_mapping doc url ty id name) url' =
      get_instance_resources doc url' := by
  unfold save_resource_mapping
  exact gir_aset_ne _ _ _ _ h

/-- Keys surviving `remove_resource_mapping` were present before. -/
theorem gir_remove_subset (doc : LedgerDoc) (url url' : String) (ty ty' : RType) (id : String) :
    ∀ a, a ∈ akeys ((get_instance_resources
        (remove_resource_mapping doc url ty id) url').get ty') →
      a ∈ akeys ((get_instance_resources doc url').get ty') := by
  intro a ha
  cases hlook : alookup doc url with
  | none =>
    rw [remove_resource_none doc url ty id hlook] at ha
    exact ha
  | some e =>
    by_cases hmem : id ∈ akeys (e.get ty)
    · rw [remove_resource_hit doc url ty id e hlook hmem] at ha
      have hgir : get_instance_resources doc url = e := by
        unfold get_instance_resources
        rw [hlook]
        rfl
      by_cases hurl : url = url'
      · subst hurl
        rw [gir_aset_self] at ha
        rw [hgir]
        by_cases hty : ty = ty'
        · subst hty
          rw [LedgerEntry.get_put_self] at ha
          unfold akeys at ha ⊢
          exact (((e.get ty).eraseP_sublist.map Prod.fst).subset) ha
        · rw [LedgerEntry.get_put_ne e ty ty' _ hty] at ha
          exact ha
      · rw [gir_aset_ne _ _ _ _ hurl] at ha
        exact ha
    · rw [remove_resource_miss doc url ty id e hlook hmem] at ha
      exact ha

theorem docTidy_apply (doc : LedgerDoc) (op : LedgerOp) (h : DocTidy doc) :
    DocTidy (applyLedgerOp doc op) := by
  cases op with
  | record url ty id name =>
    intro url' ty'
    by_cases hurl : url = url'
    · subst hurl
      rw [show applyLedgerOp doc (LedgerOp.record url ty id name) =
        save_resource_mapping doc url ty id name from rfl, gir_save_self]
      by_cases hty : ty = ty'
      · subst hty
        rw [LedgerEntry.get_put_self]
        exact nodup_akeys_aset _ _ _ (h url ty)
      · rw [LedgerEntry.get_put_ne _ _ _ _ hty]
        exact h url ty'
    · rw [show applyLedgerOp doc (LedgerOp.record url ty id name) =
        save_resource_mapping doc url ty id name from rfl, gir_save_ne _ _ _ _ _ _ hurl]
      exact h url' ty'
  | forget url ty id =>
    intro url' ty'
    show (akeys ((get_instance_resources
      (remove_resource_mapping doc url ty id) url').get ty')).Nodup
    cases hlook : alookup doc url with
    | none =>
      rw [remove_resource_none doc url ty id hlook]
      exact h url' ty'
    | some e =>
      by_cases hmem : id ∈ akeys (e.get ty)
      · rw [remove_resource_hit doc url ty id e hlook hmem]
        have hgir : get_instance_resources doc url = e := by
          unfold get_instance_resources
          rw [hlook]
          rfl
        by_cases hurl : url = url'
        · subst hurl
          rw [gir_aset_self]
          by_cases hty : ty = ty'
          · subst hty
            rw [LedgerEntry.get_put_self]
            refine (h url ty).sublist ?_
            rw [hgir]
            unfold akeys
            exact (e.get ty).eraseP_sublist.map Prod.fst
          · rw [LedgerEntry.get_put_ne _ _ _ _ hty, ← hgir]
            exact h url ty'
        · rw [gir_aset_ne _ _ _ _ hurl]
          exact h url' ty'
      · rw [remove_resource_miss doc url ty id e hlook hmem]
        exact h url' ty'

theorem docTidy_run (ops : List LedgerOp) : DocTidy (runLedgerOps ops) := by
  unfold runLedgerOps
  suffices hgen : ∀ (doc : LedgerDoc), DocTidy doc → DocTidy (ops.foldl applyLedgerOp doc) by
    refine hgen [] ?_
    intro url ty
    cases ty <;> simp [get_instance_resources, alookup, emptyLedgerEntry,
      LedgerEntry.get, akeys]
  induction ops with
  | nil =>
    intro doc h
    exact h
  | cons op rest ih =>
    intro doc h
    rw [List.foldl_cons]
    exact ih (applyLedgerOp doc op) (docTidy_apply doc op h)

/-- With duplicate-free keys, deleting a key really removes it. -/
theorem not_mem_akeys_eraseP {m : List (String × String)} {id : String}
    (h : (akeys m).Nodup) : id ∉ akeys (m.eraseP (fun p => p.1 == id)) := by
  induction m with
  | nil => simp [akeys]
  | cons p t ih =>
    unfold akeys at h
    rw [List.map_cons, List.nodup_cons] at h
    by_cases hp : p.1 = id
    · rw [List.eraseP_cons, show (p.1 == id) = true from by simp [hp], cond_true]
      intro hmem
      rw [← hp] at hmem
      exact h.1 hmem
    · rw [List.eraseP_cons, show (p.1 == id) = false from by simp [hp], cond_false]
      intro hmem
      unfold akeys at hmem
      rw [List.map_cons, List.mem_cons] at hmem
      rcases hmem with hmem | hmem
      · exact hp hmem.symm
      · exact ih h.2 hmem

/-- C9: starting from the absent/empty ledger document, (a)
`get_instance_resources` (listFor) reports a resource id for an instance
only if a `record` against that very instance and type occurs in the
operation sequence — never one recorded against a different instance; (b)
a `record` immediately followed by a `forget` of the same (instance, type,
id) leaves listFor without that id; and (c) listFor on the empty document
yields empty workflows/credentials/projects sub-maps rather than an
error. -/
theorem resource_mapping_store_spec (ops : List LedgerOp) (url : String) (ty : RType)
    (id name : String) :
    (id ∈ akeys ((get_instance_resources (runLedgerOps ops) url).get ty) →
      ∃ nm, LedgerOp.record url ty id nm ∈ ops) ∧
    (id ∉ akeys ((get_instance_resources
      (applyLedgerOp (applyLedgerOp (runLedgerOps ops) (LedgerOp.record url ty id name))
        (LedgerOp.forget url ty id)) url).get ty)) ∧
    akeys ((get_instance_resources ([] : LedgerDoc) url).get ty) = [] := by
  refine ⟨?_, ?_, ?_⟩
  · suffices hgen : ∀ (os : List LedgerOp) (doc : LedgerDoc),
        id ∈ akeys ((get_instance_resources (os.foldl applyLedgerOp doc) url).get ty) →
        (∃ nm, LedgerOp.record url ty id nm ∈ os) ∨
        id ∈ akeys ((get_instance_resources doc url).get ty) by
      intro h
      rcases hgen ops [] h with hrec | hbase
      · exact hrec
      · exfalso
        revert hbase
        cases ty <;> simp [get_instance_resources, alookup, emptyLedgerEntry,
          LedgerEntry.get, akeys]
    intro os
    induction os with
    | nil =>
      intro doc h
      exact Or.inr h
    | cons op rest ih =>
      intro doc h
      rw [List.foldl_cons] at h
      rcases ih (applyLedgerOp doc op) h with ⟨nm, hmem⟩ | hbase
      · exact Or.inl ⟨nm, List.mem_cons_of_mem _ hmem⟩
      · cases op with
        | record url2 ty2 id2 name2 =>
          by_cases hurl : url2 = url
          · subst hurl
            rw [show applyLedgerOp doc (LedgerOp.record url2 ty2 id2 name2) =
              save_resource_mapping doc url2 ty2 id2 name2 from rfl, gir_save_self] at hbase
            by_cases hty : ty2 = ty
            · subst hty
              rw [LedgerEntry.get_put_self] at hbase
              rcases (mem_akeys_aset _ _ _ _).mp hbase with hold | hnew
              · exact Or.inr hold
              · subst hnew
                exact Or.inl ⟨name2, List.mem_cons_self _ _⟩
            · rw [LedgerEntry.get_put_ne _ _ _ _ hty] at hbase
              exact Or.inr hbase
          · rw [show applyLedgerOp doc (LedgerOp.record url2 ty2 id2 name2) =
              save_resource_mapping doc url2 ty2 id2 name2 from rfl,
              gir_save_ne _ _ _ _ _ _ hurl] at hbase
            exact Or.inr hbase
        | forget url2 ty2 id2 =>
          exact Or.inr (gir_remove_subset doc url2 url ty2 ty id2 id hbase)
  · have htidy : DocTidy (runLedgerOps ops) := docTidy_run ops
    have hnodup : (akeys (aset ((get_instance_resources (runLedgerOps ops) url).get ty)
        id name)).Nodup := nodup_akeys_aset _ _ _ (htidy url ty)
    show id ∉ akeys ((get_instance_resources
      (remove_resource_mapping (save_resource_mapping (runLedgerOps ops) url ty id name)
        url ty id) url).get ty)
    have hlook : alookup (save_resource_mapping (runLedgerOps ops) url ty id name) url =
        some ((get_instance_resources (runLedgerOps ops) url).put ty
          (aset ((get_instance_resources (runLedgerOps ops) url).get ty) id name)) := by
      unfold save_resource_mapping
      exact alookup_aset_self _ _ _
    have hmem2 : id ∈ akeys (((get_instance_resources (runLedgerOps ops) url).put ty
        (aset ((get_instance_resources (runLedgerOps ops) url).get ty) id name)).get ty) := by
      rw [LedgerEntry.get_put_self]
      exact (mem_akeys_aset _ _ _ _).mpr (Or.inr rfl)
    rw [remove_resource_hit _ _ _ _ _ hlook hmem2, gir_aset_self,
      LedgerEntry.get_put_self, LedgerEntry.get_put_self]
    exact not_mem_akeys_eraseP hnodup
  · cases ty <;> rfl

theorem digitChar_toNat {n : Nat} (h : n < 10) : (digitChar n).toNat = 48 + n := by
  interval_cases n <;> rfl

theorem digitChar_isDigit {n : Nat} (h : n < 10) : (digitChar n).isDigit = true := by
  interval_cases n <;> rfl

theorem digitsVal_append_one (ds : List Char) (d : Char) :
    digitsVal (ds ++ [d]) = 10 * digitsVal ds + (d.toNat - 48) := by
  unfold digitsVal
  rw [List.foldl_append]
  rfl

/-- The decimal digits of a number: all digits, non-empty, and folding
them back gives the number. -/
theorem natDigitsF_spec : ∀ (fuel n : Nat), n < fuel →
    (natDigitsF fuel n).all Char.isDigit = true ∧ natDigitsF fuel n ≠ [] ∧
    digitsVal (natDigitsF fuel n) = n := by
  intro fuel
  induction fuel with
  | zero => intro n h; omega
  | succ fuel ih =>
    intro n h
    by_cases h10 : n < 10
    · refine ⟨?_, ?_, ?_⟩
      · simp [natDigitsF, if_pos h10, digitChar_isDigit h10]
      · simp [natDigitsF, if_pos h10]
      · simp only [natDigitsF, if_pos h10]
        unfold digitsVal
        simp [digitChar_toNat h10]
    · have hdiv : n / 10 < fuel := by
        have h1 : n / 10 < n := Nat.div_lt_self (by omega) (by omega)
        omega
      obtain ⟨ha, hn, hv⟩ := ih (n / 10) hdiv
      refine ⟨?_, ?_, ?_⟩
      · simp only [natDigitsF, if_neg h10, List.all_append, ha, Bool.true_and]
        simp [digitChar_isDigit (Nat.mod_lt n (by omega))]
      · simp [natDigitsF, if_neg h10]
      · simp only [natDigitsF, if_neg h10]
        rw [digitsVal_append_one, hv, digitChar_toNat (Nat.mod_lt n (by omega))]
        omega

/-- Splitting takeWhile and dropWhile around a block that satisfies the
predicate followed by a suffix that opens with a failure. -/
theorem takeWhile_all_append {p : Char → Bool} :
    ∀ (ds rest : List Char), ds.all p = true →
    (∀ c r, rest = c :: r → p c = false) →
    (ds ++ rest).takeWhile p = ds ∧ (ds ++ rest).dropWhile p = rest := by
  intro ds
  induction ds with
  | nil =>
    intro rest hall hrest
    cases rest with
    | nil => exact ⟨rfl, rfl⟩
    | cons c r =>
      have hc := hrest c r rfl
      constructor
      · show List.takeWhile p (c :: r) = []
        rw [List.takeWhile_cons, hc]
        rfl
      · show List.dropWhile p (c :: r) = c :: r
        rw [List.dropWhile_cons, hc]
        rfl
  | cons d ds ih =>
    intro rest hall hrest
    rw [List.all_cons, Bool.and_eq_true] at hall
    obtain ⟨h1, h2⟩ := ih rest hall.2 hrest
    constructor
    · show List.takeWhile p (d :: (ds ++ rest)) = d :: ds
      rw [List.takeWhile_cons, hall.1, h1]
      rfl
    · show List.dropWhile p (d :: (ds ++ rest)) = rest
      rw [List.dropWhile_cons, hall.1, h2]
      rfl

theorem sepHead_not_digit {rest : List Char} (h : sepHead rest = true) :
    ∀ c r, rest = c :: r → Char.isDigit c = false := by
  intro c r he
  subst he
  simp only [sepHead, Bool.or_eq_true, beq_iff_eq] at h
  rcases h with (h | h) | h <;> subst h <;> rfl

theorem sepHead_of_rb {rest : List Char} (h : rest.head? = some ']') :
    sepHead rest = true := by
  cases rest with
  | nil => exact absurd h (by simp)
  | cons c r =>
    simp only [List.head?_cons, Option.some.injEq] at h
    subst h
    rfl

theorem sepHead_of_cb {rest : List Char} (h : rest.head? = some '\x7d') :
    sepHead rest = true := by
  cases rest with
  | nil => exact absurd h (by simp)
  | cons c r =>
    simp only [List.head?_cons, Option.some.injEq] at h
    subst h
    rfl

theorem ne_of_isDigit {c d : Char} (h : c.isDigit = true) (hd : d.isDigit = false) :
    c ≠ d := by
  intro he
  subst he
  rw [h] at hd
  exact absurd hd (by decide)

theorem string_mk_data (s : String) : String.mk s.data = s := by
  cases s
  rfl

theorem jcharOK_ne_quote {c : Char} (h : jcharOK c = true) : (c != '\x22') = true := by
  unfold jcharOK at h
  simp only [Bool.and_eq_true, decide_eq_true_eq] at h
  simp only [bne_iff_ne, ne_eq]
  intro he
  subst he
  exact absurd h (by decide)

theorem strOK_all_ne_quote {s : String} (h : strOK s = true) :
    s.data.all (fun d => d != '\x22') = true := by
  unfold strOK at h
  rw [List.all_eq_true] at h ⊢
  intro x hx
  exact jcharOK_ne_quote (h x hx)

theorem occursB_cons (pat : List Char) (c : Char) (t : List Char) :
    occursB pat (c :: t) = (pat.isPrefixOf (c :: t) || occursB pat t) := by
  unfold occursB
  rw [List.tails_cons, List.any_cons]

theorem replaceCore_id : ∀ (fuel : Nat) (pat new s : List Char), s.length < fuel →
    occursB pat s = false → replaceCore fuel pat new s = s := by
  intro fuel
  induction fuel with
  | zero => intro pat new s h; omega
  | succ fuel ih =>
    intro pat new s hlen hocc
    cases s with
    | nil => rfl
    | cons c t =>
      rw [occursB_cons, Bool.or_eq_false_iff] at hocc
      show (if pat.isPrefixOf (c :: t) then
          new ++ replaceCore fuel pat new ((c :: t).drop pat.length)
        else c :: replaceCore fuel pat new t) = c :: t
      rw [hocc.1, if_neg (by simp)]
      rw [ih pat new t (by simp at hlen; omega) hocc.2]

theorem strReplace_id (pat new s : List Char) (hocc : occursB pat s = false) :
    strReplace pat new s = s := by
  unfold strReplace
  by_cases hp : pat.isEmpty
  · rw [if_pos hp]
  · rw [if_neg hp]
    exact replaceCore_id _ pat new s (Nat.lt_succ_self _) hocc

theorem foldReplace_id : ∀ (table : List (List Char × List Char)) (s : List Char),
    (∀ p ∈ table, occursB p.1 s = false) → foldReplace table s = s := by
  intro table
  induction table with
  | nil => intro s h; rfl
  | cons p t ih =>
    intro s h
    show foldReplace t (strReplace p.1 p.2 s) = s
    rw [strReplace_id p.1 p.2 s (h p (List.mem_cons_self p t))]
    exact ih s (fun q hq => h q (List.mem_cons_of_mem p hq))

/-- A serialized value is non-empty and never opens with a closing
bracket, closing brace or comma. -/
theorem dumpsF_head : ∀ (fuel : Nat) (v : JVal), goodF fuel v = true →
    ∃ c t, dumpsF fuel v = c :: t ∧ c ≠ ']' ∧ c ≠ '\x7d' := by
  intro fuel v hg
  cases fuel with
  | zero => exact absurd hg (by simp [goodF])
  | succ fuel =>
    cases v with
    | null => exact ⟨'n', _, rfl, by decide, by decide⟩
    | bool b =>
      cases b
      · exact ⟨'f', _, rfl, by decide, by decide⟩
      · exact ⟨'t', _, rfl, by decide, by decide⟩
    | num n =>
      show ∃ c t, intChars n = c :: t ∧ c ≠ ']' ∧ c ≠ '\x7d'
      unfold intChars
      by_cases hn : n < 0
      · rw [if_pos hn]
        exact ⟨'-', _, rfl, by decide, by decide⟩
      · rw [if_neg hn]
        obtain ⟨ha, hne, _⟩ := natDigitsF_spec (n.toNat + 1) n.toNat (Nat.lt_succ_self _)
        cases hd : natDigitsF (n.toNat + 1) n.toNat with
        | nil => exact absurd hd hne
        | cons c t =>
          rw [hd, List.all_cons, Bool.and_eq_true] at ha
          exact ⟨c, t, rfl, ne_of_isDigit ha.1 (by decide),
            ne_of_isDigit ha.1 (by decide)⟩
    | str s => exact ⟨'\x22', _, rfl, by decide, by decide⟩
    | arr xs => exact ⟨'[', _, rfl, by decide, by decide⟩
    | obj fs => exact ⟨'\x7b', _, rfl, by decide, by decide⟩

theorem parse_dumps_round : ∀ pf : Nat,
    (∀ df v rest, goodF df v = true → sepHead rest = true →
      (dumpsF df v).length + 1 ≤ pf →
      parseVal pf (dumpsF df v ++ rest) = some (v, rest)) ∧
    (∀ df xs rest, xs.all (fun x => goodF df x) = true → rest.head? = some ']' →
      (joinComma (xs.map (fun x => dumpsF df x))).length + 2 ≤ pf →
      parseItems pf (joinComma (xs.map (fun x => dumpsF df x)) ++ rest) = some (xs, rest)) ∧
    (∀ df fs rest, fs.all (fun p => strOK p.1 && goodF df p.2) = true →
      rest.head? = some '\x7d' →
      (joinComma (fs.map (objItemF df))).length + 2 ≤ pf →
      parseFields pf (joinComma (fs.map (objItemF df)) ++ rest) = some (fs, rest)) := by
  intro pf
  induction pf with
  | zero =>
    refine ⟨?_, ?_, ?_⟩
    · intro df v rest _ _ hlen; omega
    · intro df xs rest _ _ hlen; omega
    · intro df fs rest _ _ hlen; omega
  | succ pf ih =>
    obtain ⟨ihV, ihL, ihO⟩ := ih
    refine ⟨?_, ?_, ?_⟩
    · intro df v rest hg hsep hlen
      cases df with
      | zero => exact absurd hg (by simp [goodF])
      | succ df =>
        cases v with
        | null =>
          show parseVal (pf + 1) (['n', 'u', 'l', 'l'] ++ rest) = some (JVal.null, rest)
          simp [parseVal]
        | bool b =>
          cases b
          · show parseVal (pf + 1) (['f', 'a', 'l', 's', 'e'] ++ rest) =
              some (JVal.bool false, rest)
            simp [parseVal]
          · show parseVal (pf + 1) (['t', 'r', 'u', 'e'] ++ rest) =
              some (JVal.bool true, rest)
            simp [parseVal]
        | num n =>
          show parseVal (pf + 1) (intChars n ++ rest) = some (JVal.num n, rest)
          unfold intChars
          by_cases hn : n < 0
          · rw [if_pos hn]
            obtain ⟨hall, hne, hval⟩ :=
              natDigitsF_spec (n.natAbs + 1) n.natAbs (Nat.lt_succ_self _)
            obtain ⟨htk, hdr⟩ := takeWhile_all_append (p := Char.isDigit)
              (natDigitsF (n.natAbs + 1) n.natAbs) rest hall (sepHead_not_digit hsep)
            rw [List.cons_append]
            rw [show parseVal (pf + 1) ('-' :: (natDigitsF (n.natAbs + 1) n.natAbs ++ rest)) =
              (let ds := (natDigitsF (n.natAbs + 1) n.natAbs ++ rest).takeWhile Char.isDigit
               if ds.isEmpty then none
               else some (JVal.num (-(digitsVal ds : Int)),
                 (natDigitsF (n.natAbs + 1) n.natAbs ++ rest).dropWhile Char.isDigit)) from by
              simp [parseVal]]
            simp only [htk, hdr]
            rw [show (natDigitsF (n.natAbs + 1) n.natAbs).isEmpty = false from by
              cases h : natDigitsF (n.natAbs + 1) n.natAbs with
              | nil => exact absurd h hne
              | cons a b => rfl]
            simp only [if_false, Bool.false_eq_true, hval]
            have hcast : -((n.natAbs : Nat) : Int) = n := by omega
            rw [hcast]
          · rw [if_neg hn]
            obtain ⟨hall, hne, hval⟩ :=
              natDigitsF_spec (n.toNat + 1) n.toNat (Nat.lt_succ_self _)
            cases hd : natDigitsF (n.toNat + 1) n.toNat with
            | nil => exact absurd hd hne
            | cons c t =>
              rw [hd] at hall hval
              obtain ⟨htk, hdr⟩ := takeWhile_all_append (p := Char.isDigit)
                (c :: t) rest hall (sepHead_not_digit hsep)
              have hcdig : c.isDigit = true := by
                rw [List.all_cons, Bool.and_eq_true] at hall
                exact hall.1
              obtain ⟨hc1, hc2, hc3, hc4, hc5, hc6, hc7⟩ :
                  c ≠ 'n' ∧ c ≠ 't' ∧ c ≠ 'f' ∧ c ≠ '\x22' ∧ c ≠ '-' ∧ c ≠ '[' ∧ c ≠ '\x7b' :=
                ⟨ne_of_isDigit hcdig (by decide), ne_of_isDigit hcdig (by decide),
                 ne_of_isDigit hcdig (by decide), ne_of_isDigit hcdig (by decide),
                 ne_of_isDigit hcdig (by decide), ne_of_isDigit hcdig (by decide),
                 ne_of_isDigit hcdig (by decide)⟩
              rw [List.cons_append]
              rw [show parseVal (pf + 1) (c :: (t ++ rest)) =
                some (JVal.num ((digitsVal ((c :: (t ++ rest)).takeWhile Char.isDigit) : Nat) : Int),
                  (c :: (t ++ rest)).dropWhile Char.isDigit) from by
                simp [parseVal, hc1, hc2, hc3, hc4, hc5, hc6, hc7, hcdig]]
              rw [show c :: (t ++ rest) = (c :: t) ++ rest from rfl, htk, hdr, hval]
              have hcast : ((n.toNat : Nat) : Int) = n := by omega
              rw [hcast]
        | str s =>
          have hstr : strOK s = true := by
            simpa [goodF] using hg
          show parseVal (pf + 1) (('\x22' :: s.data ++ ['\x22']) ++ rest) =
            some (JVal.str s, rest)
          obtain ⟨htk, hdr⟩ := takeWhile_all_append (p := fun d => d != '\x22')
            s.data ('\x22' :: rest) (strOK_all_ne_quote hstr)
            (fun c r he => by injection he with h1 h2; subst h1; rfl)
          rw [show ('\x22' :: s.data ++ ['\x22']) ++ rest =
            '\x22' :: (s.data ++ ('\x22' :: rest)) from by simp]
          rw [show parseVal (pf + 1) ('\x22' :: (s.data ++ ('\x22' :: rest))) =
            (if ((s.data ++ ('\x22' :: rest)).dropWhile (fun d => d != '\x22')).head? =
                some '\x22' then
              some (JVal.str (String.mk
                ((s.data ++ ('\x22' :: rest)).takeWhile (fun d => d != '\x22'))),
                ((s.data ++ ('\x22' :: rest)).dropWhile (fun d => d != '\x22')).tail)
             else none) from by simp [parseVal]]
          rw [htk, hdr]
          simp [string_mk_data]
        | arr xs =>
          have hgl : xs.all (fun x => goodF df x) = true := by
            simpa [goodF] using hg
          show parseVal (pf + 1)
            (('[' :: joinComma (xs.map (fun x => dumpsF df x)) ++ [']']) ++ rest) =
            some (JVal.arr xs, rest)
          have hlen2 : (joinComma (xs.map (fun x => dumpsF df x))).length + 2 ≤ pf := by
            have he : dumpsF (df + 1) (JVal.arr xs) =
              '[' :: joinComma (xs.map (fun x => dumpsF df x)) ++ [']'] := rfl
            rw [he] at hlen
            simp only [List.length_cons, List.length_append, List.length_singleton] at hlen
            omega
          have hitems := ihL df xs (']' :: rest) hgl rfl hlen2
          rw [show ('[' :: joinComma (xs.map (fun x => dumpsF df x)) ++ [']']) ++ rest =
            '[' :: (joinComma (xs.map (fun x => dumpsF df x)) ++ (']' :: rest)) from by simp]
          rw [show parseVal (pf + 1)
              ('[' :: (joinComma (xs.map (fun x => dumpsF df x)) ++ (']' :: rest))) =
            (match parseItems pf (joinComma (xs.map (fun x => dumpsF df x)) ++ (']' :: rest)) with
             | some (ys, r) => if r.head? = some ']' then some (JVal.arr ys, r.tail) else none
             | none => none) from by simp [parseVal]]
          rw [hitems]
          simp
        | obj fs =>
          have hgl : fs.all (fun p => strOK p.1 && goodF df p.2) = true := by
            simpa [goodF] using hg
          show parseVal (pf + 1)
            (('\x7b' :: joinComma (fs.map (objItemF df)) ++ ['\x7d']) ++ rest) =
            some (JVal.obj fs, rest)
          have hlen2 : (joinComma (fs.map (objItemF df))).length + 2 ≤ pf := by
            have he : dumpsF (df + 1) (JVal.obj fs) =
              '\x7b' :: joinComma (fs.map (objItemF df)) ++ ['\x7d'] := rfl
            rw [he] at hlen
            simp only [List.length_cons, List.length_append, List.length_singleton] at hlen
            omega
          have hfields := ihO df fs ('\x7d' :: rest) hgl rfl hlen2
          rw [show ('\x7b' :: joinComma (fs.map (objItemF df)) ++ ['\x7d']) ++ rest =
            '\x7b' :: (joinComma (fs.map (objItemF df)) ++ ('\x7d' :: rest)) from by simp]
          rw [show parseVal (pf + 1)
              ('\x7b' :: (joinComma (fs.map (objItemF df)) ++ ('\x7d' :: rest))) =
            (match parseFields pf (joinComma (fs.map (objItemF df)) ++ ('\x7d' :: rest)) with
             | some (gs, r) => if r.head? = some '\x7d' then some (JVal.obj gs, r.tail) else none
             | none => none) from by simp [parseVal]]
          rw [hfields]
          simp
    · intro df xs rest hall hhead hlen
      cases xs with
      | nil =>
        show parseItems (pf + 1) rest = some ([], rest)
        rw [show parseItems (pf + 1) rest =
          (if rest.head? = some ']' then some (([] : List JVal), rest)
           else
             match parseVal pf rest with
             | some (v, r) =>
               if r.take 2 = [',', ' '] then
                 match parseItems pf (r.drop 2) with
                 | some (ys, r2) => some (v :: ys, r2)
                 | none => none
               else some ([v], r)
             | none => none) from by simp [parseItems]]
        rw [if_pos hhead]
      | cons x t =>
        rw [List.all_cons, Bool.and_eq_true] at hall
        obtain ⟨c0, t0, hd0, hrb, hcb⟩ := dumpsF_head df x hall.1
        cases t with
        | nil =>
          show parseItems (pf + 1) (dumpsF df x ++ rest) = some ([x], rest)
          have hnotrb : ¬ (dumpsF df x ++ rest).head? = some ']' := by
            rw [hd0, List.cons_append, List.head?_cons]
            simp [hrb]
          have hlen2 : (dumpsF df x).length + 1 ≤ pf := by
            have : joinComma ([x].map (fun y => dumpsF df y)) = dumpsF df x := rfl
            rw [this] at hlen
            omega
          have hv := ihV df x rest hall.1 (sepHead_of_rb hhead) hlen2
          rw [show parseItems (pf + 1) (dumpsF df x ++ rest) =
            (if (dumpsF df x ++ rest).head? = some ']' then some ([], dumpsF df x ++ rest)
             else
               match parseVal pf (dumpsF df x ++ rest) with
               | some (v, r) =>
                 if r.take 2 = [',', ' '] then
                   match parseItems pf (r.drop 2) with
                   | some (ys, r2) => some (v :: ys, r2)
                   | none => none
                 else some ([v], r)
               | none => none) from by simp [parseItems]]
          rw [if_neg hnotrb, hv]
          have hrest2 : ¬ rest.take 2 = [',', ' '] := by
            cases rest with
            | nil => simp
            | cons c r =>
              simp only [List.head?_cons, Option.some.injEq] at hhead
              subst hhead
              simp [List.take_succ_cons]
          simp [hrest2]
        | cons y t2 =>
          show parseItems (pf + 1)
            ((dumpsF df x ++ ',' :: ' ' ::
              joinComma ((y :: t2).map (fun z => dumpsF df z))) ++ rest) =
            some (x :: y :: t2, rest)
          rw [show (dumpsF df x ++ ',' :: ' ' ::
              joinComma ((y :: t2).map (fun z => dumpsF df z))) ++ rest =
            dumpsF df x ++ (',' :: ' ' ::
              (joinComma ((y :: t2).map (fun z => dumpsF df z)) ++ rest)) from by simp]
          have hnotrb : ¬ (dumpsF df x ++ (',' :: ' ' ::
              (joinComma ((y :: t2).map (fun z => dumpsF df z)) ++ rest))).head? =
              some ']' := by
            rw [hd0, List.cons_append, List.head?_cons]
            simp [hrb]
          have hlen3 : (dumpsF df x).length + 2 +
              (joinComma ((y :: t2).map (fun z => dumpsF df z))).length + 2 ≤ pf + 1 := by
            have : joinComma ((x :: y :: t2).map (fun z => dumpsF df z)) =
              dumpsF df x ++ ',' :: ' ' ::
                joinComma ((y :: t2).map (fun z => dumpsF df z)) := rfl
            rw [this] at hlen
            simp only [List.length_append, List.length_cons] at hlen
            omega
          have hv := ihV df x (',' :: ' ' ::
            (joinComma ((y :: t2).map (fun z => dumpsF df z)) ++ rest)) hall.1
            rfl (by omega)
          have hrec := ihL df (y :: t2) rest hall.2 hhead (by omega)
          rw [show parseItems (pf + 1) (dumpsF df x ++ (',' :: ' ' ::
              (joinComma ((y :: t2).map (fun z => dumpsF df z)) ++ rest))) =
            (if (dumpsF df x ++ (',' :: ' ' ::
                (joinComma ((y :: t2).map (fun z => dumpsF df z)) ++ rest))).head? =
                some ']' then
              some ([], dumpsF df x ++ (',' :: ' ' ::
                (joinComma ((y :: t2).map (fun z => dumpsF df z)) ++ rest)))
             else
               match parseVal pf (dumpsF df x ++ (',' :: ' ' ::
                 (joinComma ((y :: t2).map (fun z => dumpsF df z)) ++ rest))) with
               | some (v, r) =>
                 if r.take 2 = [',', ' '] then
                   match parseItems pf (r.drop 2) with
                   | some (ys, r2) => some (v :: ys, r2)
                   | none => none
                 else some ([v], r)
               | none => none) from by simp [parseItems]]
          rw [if_neg hnotrb, hv]
          simp only [List.map_cons] at hrec
          simp [hrec]
    · intro df fs rest hall hhead hlen
      cases fs with
      | nil =>
        show parseFields (pf + 1) rest = some ([], rest)
        simp [parseFields, hhead]
      | cons p t =>
        obtain ⟨k, v⟩ := p
        have hall' : strOK k = true ∧ goodF df v = true ∧
            t.all (fun q => strOK q.1 && goodF df q.2) = true := by
          simpa [List.all_cons, Bool.and_eq_true, and_assoc] using hall
        cases t with
        | nil =>
          show parseFields (pf + 1)
            (('\x22' :: k.data ++ '\x22' :: ':' :: ' ' :: dumpsF df v) ++ rest) =
            some ([(k, v)], rest)
          obtain ⟨htk, hdr⟩ := takeWhile_all_append (p := fun d => d != '\x22')
            k.data ('\x22' :: ':' :: ' ' :: (dumpsF df v ++ rest))
            (strOK_all_ne_quote hall'.1)
            (fun c r he => by injection he with h1 h2; subst h1; rfl)
          have hlen2 : (dumpsF df v).length + 1 ≤ pf := by
            have he : joinComma ([((k : String), v)].map (objItemF df)) =
              '\x22' :: k.data ++ '\x22' :: ':' :: ' ' :: dumpsF df v := rfl
            rw [he] at hlen
            simp only [List.length_cons, List.length_append] at hlen
            omega
          have hv := ihV df v rest hall'.2.1 (sepHead_of_cb hhead) hlen2
          rw [show ('\x22' :: k.data ++ '\x22' :: ':' :: ' ' :: dumpsF df v) ++ rest =
            '\x22' :: (k.data ++ ('\x22' :: ':' :: ' ' :: (dumpsF df v ++ rest)))
            from by simp]
          rw [show parseFields (pf + 1)
              ('\x22' :: (k.data ++ ('\x22' :: ':' :: ' ' :: (dumpsF df v ++ rest)))) =
            (if ((k.data ++ ('\x22' :: ':' :: ' ' :: (dumpsF df v ++ rest))).dropWhile
                (fun d => d != '\x22')).take 3 = ['\x22', ':', ' '] then
              match parseVal pf (((k.data ++ ('\x22' :: ':' :: ' ' ::
                  (dumpsF df v ++ rest))).dropWhile (fun d => d != '\x22')).drop 3) with
              | some (w, r) =>
                if r.take 2 = [',', ' '] then
                  match parseFields pf (r.drop 2) with
                  | some (gs, r2) => some ((String.mk ((k.data ++ ('\x22' :: ':' :: ' ' ::
                      (dumpsF df v ++ rest))).takeWhile (fun d => d != '\x22')), w) :: gs, r2)
                  | none => none
                else some ([(String.mk ((k.data ++ ('\x22' :: ':' :: ' ' ::
                    (dumpsF df v ++ rest))).takeWhile (fun d => d != '\x22')), w)], r)
              | none => none
             else none) from by simp [parseFields]]
          rw [htk, hdr]
          have hrest2 : ¬ rest.take 2 = [',', ' '] := by
            cases rest with
            | nil => simp
            | cons c r =>
              simp only [List.head?_cons, Option.some.injEq] at hhead
              subst hhead
              simp [List.take_succ_cons]
          simp [hv, hrest2, string_mk_data]
        | cons q t2 =>
          show parseFields (pf + 1)
            ((('\x22' :: k.data ++ '\x22' :: ':' :: ' ' :: dumpsF df v) ++ ',' :: ' ' ::
              joinComma ((q :: t2).map (objItemF df))) ++ rest) =
            some ((k, v) :: q :: t2, rest)
          obtain ⟨htk, hdr⟩ := takeWhile_all_append (p := fun d => d != '\x22')
            k.data ('\x22' :: ':' :: ' ' :: (dumpsF df v ++ (',' :: ' ' ::
              (joinComma ((q :: t2).map (objItemF df)) ++ rest))))
            (strOK_all_ne_quote hall'.1)
            (fun c r he => by injection he with h1 h2; subst h1; rfl)
          have hlens : (dumpsF df v).length + k.data.length + 4 + 2 +
              (joinComma ((q :: t2).map (objItemF df))).length + 2 ≤ pf + 1 := by
            have he : joinComma ((((k : String), v) :: q :: t2).map (objItemF df)) =
              ('\x22' :: k.data ++ '\x22' :: ':' :: ' ' :: dumpsF df v) ++ ',' :: ' ' ::
                joinComma ((q :: t2).map (objItemF df)) := rfl
            rw [he] at hlen
            simp only [List.length_cons, List.length_append] at hlen
            omega
          have hv := ihV df v (',' :: ' ' ::
            (joinComma ((q :: t2).map (objItemF df)) ++ rest)) hall'.2.1 rfl (by omega)
          have hrec := ihO df (q :: t2) rest hall'.2.2 hhead (by omega)
          rw [show (('\x22' :: k.data ++ '\x22' :: ':' :: ' ' :: dumpsF df v) ++ ',' :: ' ' ::
              joinComma ((q :: t2).map (objItemF df))) ++ rest =
            '\x22' :: (k.data ++ ('\x22' :: ':' :: ' ' :: (dumpsF df v ++ (',' :: ' ' ::
              (joinComma ((q :: t2).map (objItemF df)) ++ rest))))) from by simp]
          rw [show parseFields (pf + 1)
              ('\x22' :: (k.data ++ ('\x22' :: ':' :: ' ' :: (dumpsF df v ++ (',' :: ' ' ::
                (joinComma ((q :: t2).map (objItemF df)) ++ rest)))))) =
            (if ((k.data ++ ('\x22' :: ':' :: ' ' :: (dumpsF df v ++ (',' :: ' ' ::
                (joinComma ((q :: t2).map (objItemF df)) ++ rest))))).dropWhile
                (fun d => d != '\x22')).take 3 = ['\x22', ':', ' '] then
              match parseVal pf (((k.data ++ ('\x22' :: ':' :: ' ' :: (dumpsF df v ++
                  (',' :: ' ' :: (joinComma ((q :: t2).map (objItemF df)) ++
                    rest))))).dropWhile (fun d => d != '\x22')).drop 3) with
              | some (w, r) =>
                if r.take 2 = [',', ' '] then
                  match parseFields pf (r.drop 2) with
                  | some (gs, r2) => some ((String.mk ((k.data ++ ('\x22' :: ':' :: ' ' ::
                      (dumpsF df v ++ (',' :: ' ' :: (joinComma ((q :: t2).map (objItemF df))
                        ++ rest))))).takeWhile (fun d => d != '\x22')), w) :: gs, r2)
                  | none => none
                else some ([(String.mk ((k.data ++ ('\x22' :: ':' :: ' ' ::
                    (dumpsF df v ++ (',' :: ' ' :: (joinComma ((q :: t2).map (objItemF df))
                      ++ rest))))).takeWhile (fun d => d != '\x22')), w)], r)
              | none => none
             else none) from by simp [parseFields]]
          rw [htk, hdr]
          simp only [List.map_cons] at hv hrec
          simp [hv, hrec, string_mk_data]

/-- Parsing back a dumped value consumes exactly the dump and returns the
value. -/
theorem loads_dumps (df : Nat) (v : JVal) (h : goodF df v = true) :
    loadsJ (dumpsF df v) = some v := by
  unfold loadsJ
  have hpv := (parse_dumps_round ((dumpsF df v).length + 1)).1 df v [] h rfl (Nat.le_refl _)
  rw [List.append_nil] at hpv
  rw [hpv]

/-- C8: the literal-replacement step (dumps, apply every replacement pair,
re-parse, with the original kept on parse failure) is the identity on any
definition whose serialized form contains no key of the replacement table
as a substring. -/
theorem literal_replacement_identity (table : List (List Char × List Char)) (fuel : Nat)
    (d : JVal) (hgood : goodF fuel d = true)
    (habs : ∀ p ∈ table, occursB p.1 (dumpsF fuel d) = false) :
    literalReplaceStep table fuel d = d := by
  unfold literalReplaceStep
  rw [foldReplace_id table (dumpsF fuel d) habs, loads_dumps fuel d hgood]

theorem literal_replacement_identity_witness :
    goodF 2 (JVal.obj [("name", JVal.str "Wf A"), ("active", JVal.bool true)]) = true ∧
    (∀ p ∈ [(['X', 'Y'], ['Z'])],
      occursB p.1 (dumpsF 2 (JVal.obj [("name", JVal.str "Wf A"),
        ("active", JVal.bool true)])) = false) ∧
    literalReplaceStep [(['X', 'Y'], ['Z'])] 2
        (JVal.obj [("name", JVal.str "Wf A"), ("active", JVal.bool true)]) =
      JVal.obj [("name", JVal.str "Wf A"), ("active", JVal.bool true)] :=
  ⟨by decide, by decide,
    literal_replacement_identity [(['X', 'Y'], ['Z'])] 2
      (JVal.obj [("name", JVal.str "Wf A"), ("active", JVal.bool true)])
      (by decide) (by decide)⟩

end NPorter
